import Mathlib

/-!
The `ls | wc` pipeline sketch (`src/pseudo_code_0.c`).

The source is a pseudo-code sketch built from four primitives that its header
comment (lines 2-6) documents:

* `createpipe`  creates a pipe with a read and write end
* `child`       runs the following bracketed code inside a child process
* `run`         executes the command given to it and completely stops the ongoing process
* `changefd new_fd std_stream`  makes reading/writing from std_stream read/write from newfd

The sketch itself (lines 12-22) is embedded as the statement list `orchestrator`.
Its meaning is given by a small-step interpreter over an explicit system state
(processes with descriptor tables, pipe buffers, and a chronological event log).
The standard slots are the descriptors 0, 1 and 2, a new descriptor is the lowest
free one, and a process that has run out of statements ends.
Processes run concurrently: an execution is a list of scheduled actions, and
every interleaving is a list of actions, so statements quantified over all action
lists cover every execution.
-/

namespace Multipipe

/-! ## Data model -/

/-- One byte of a stream. -/
abbrev Byte := Nat

/-- The three standard-stream slots named by the sketch (`standard_in`, `standard_out`)
and by `changefd`'s documentation (`std_stream`). -/
inductive StdStream where
  | standard_in
  | standard_out
  | standard_error
deriving DecidableEq, Repr

/-- Opaque handles. A handle is either an object the orchestrator inherited from its
environment (terminal, file, ...), or one end of a pipe made by `createpipe`. -/
inductive Handle where
  | inherited (obj : Nat)
  | pipeRead (id : Nat)
  | pipeWrite (id : Nat)
deriving DecidableEq, Repr

/-- The value returned by `createpipe`: "a pipe with a read and write end" (line 3);
the sketch uses it as `p.read` and `p.write`. -/
structure Pipe where
  read : Handle
  write : Handle
deriving DecidableEq, Repr

/-- Descriptor table of a process. The three standard slots are the descriptors 0, 1
and 2 (line 20: "Calls to write(1, *, *) now write to the pipe p"); a slot is `none`
when it is closed. `others` are the descriptors from 3 up, all open, in order. -/
structure DescriptorTable where
  standard_in : Option Handle
  standard_out : Option Handle
  standard_error : Option Handle
  others : List Handle
deriving DecidableEq, Repr

/-- Binding of a standard slot. -/
def DescriptorTable.get (t : DescriptorTable) : StdStream → Option Handle
  | .standard_in => t.standard_in
  | .standard_out => t.standard_out
  | .standard_error => t.standard_error

/-- Rebind one standard slot, leaving every other entry alone. -/
def DescriptorTable.set (t : DescriptorTable) (slot : StdStream) (h : Option Handle) :
    DescriptorTable :=
  match slot with
  | .standard_in => { t with standard_in := h }
  | .standard_out => { t with standard_out := h }
  | .standard_error => { t with standard_error := h }

/-- Open a new descriptor on handle `h`: it takes the lowest free descriptor, that is,
the first closed standard slot if there is one, and the next descriptor above the
open ones otherwise. -/
def DescriptorTable.install (t : DescriptorTable) (h : Handle) : DescriptorTable :=
  match t.standard_in, t.standard_out, t.standard_error with
  | none, _, _ => { t with standard_in := some h }
  | some _, none, _ => { t with standard_out := some h }
  | some _, some _, none => { t with standard_error := some h }
  | some _, some _, some _ => { t with others := t.others ++ [h] }

/-- All handles a table references, slot bindings included. -/
def DescriptorTable.handles (t : DescriptorTable) : List Handle :=
  t.standard_in.toList ++ t.standard_out.toList ++ t.standard_error.toList ++ t.others

/-- The table of a process that no longer exists: nothing is open. -/
def DescriptorTable.closedAll : DescriptorTable :=
  { standard_in := none, standard_out := none, standard_error := none, others := [] }

/-- Which end of the variable `p` an expression `p.read` / `p.write` names. -/
inductive PipeEnd where
  | read
  | write
deriving DecidableEq, Repr

/-- Select `p.read` or `p.write`. -/
def Pipe.sel (p : Pipe) : PipeEnd → Handle
  | .read => p.read
  | .write => p.write

/-- Statements of the sketch. -/
inductive Stmt where
  | createpipe
  | child (body : List Stmt)
  | changefd (new_fd : PipeEnd) (std_stream : StdStream)
  | run (cmd : String)

/-- Lines 15-16: the block of the first child. -/
def wcBlock : List Stmt :=
  [Stmt.changefd PipeEnd.read StdStream.standard_in, Stmt.run "wc"]

/-- Lines 20-21: the block of the second child. -/
def lsBlock : List Stmt :=
  [Stmt.changefd PipeEnd.write StdStream.standard_out, Stmt.run "ls"]

/-- Lines 12-22 of `src/pseudo_code_0.c`:
`p = createpipe()`, `child { changefd(p.read, standard_in); run("wc") }`,
`child { changefd(p.write, standard_out); run("ls") }`. -/
def orchestrator : List Stmt :=
  [Stmt.createpipe, Stmt.child wcBlock, Stmt.child lsBlock]

/-- An external command image: its name and the arguments passed beyond the name. -/
structure Image where
  name : String
  args : List String
deriving DecidableEq, Repr

/-- Where a process stands. `Original` is the process that starts the sketch; the
other constructors are the per-child states `Duplicated`, `Remapping`, `Executing`,
and the terminal state of a process that has exited, with its status. -/
inductive Phase where
  | Original
  | Duplicated
  | Remapping
  | Executing (img : Image)
  | Exited (status : Nat)
deriving DecidableEq, Repr

/-- How far a process is through the sketch: 0 before its remap, 1 once it has
remapped, 2 once it has left the sketch, as a running image or as a process that has
ended. -/
def Phase.rank : Phase → Nat
  | .Original => 0
  | .Duplicated => 0
  | .Remapping => 1
  | .Executing _ => 2
  | .Exited _ => 2

/-- The exit status of a process, when it has one. -/
def Phase.exitStatus : Phase → Option Nat
  | .Exited st => some st
  | _ => none

/-- A process: descriptor table, the variable `p`, the sketch code it still has to
run, and its phase. -/
structure Proc where
  fds : DescriptorTable
  p : Option Pipe
  code : List Stmt
  phase : Phase

/-- Modelled from the spec: the ways `run` can fail (section 4.4 and 7); the source
sketch shows no failure path. -/
inductive ExecError where
  | CommandNotFound
  | ExecPermissionDenied
deriving DecidableEq, Repr

/-- Modelled from the spec: resolution of a command name against the execution-path
lookup rules (section 4.4): `none` when the name resolves, or the error signalled. -/
abbrev Resolution := String → Option ExecError

/-- Observable events, logged in chronological order. -/
inductive Event where
  | pipeCreated (pid : Nat) (p : Pipe)
  | duplicated (parent child : Nat) (fds : DescriptorTable)
  | remapped (pid : Nat) (slot : StdStream) (h : Handle)
  | executed (pid : Nat) (img : Image) (fds : DescriptorTable)
  | execFailed (pid : Nat) (cmd : String) (err : ExecError)
  | wrote (pid : Nat) (slot : StdStream) (bytes : List Byte)
  | readData (pid : Nat) (slot : StdStream) (bytes : List Byte)
  | readExternal (pid : Nat) (slot : StdStream)
  | endOfStream (pid : Nat) (slot : StdStream)
  | closed (pid : Nat) (slot : StdStream)
  | exited (pid : Nat) (status : Nat)
deriving DecidableEq, Repr

/-- The whole system: processes (a process id is an index, the orchestrator is 0),
the buffer of every pipe (a pipe id is an index), and the event log. -/
structure Sys where
  procs : List Proc
  pipes : List (List Byte)
  log : List Event

/-- What a scheduled process does: its next sketch statement, or, once it is an
external image, a system call on one of its standard slots or its exit. -/
inductive Op where
  | sketch
  | write (slot : StdStream) (bytes : List Byte)
  | read (slot : StdStream) (n : Nat)
  | close (slot : StdStream)
  | exit (status : Nat)
deriving DecidableEq, Repr

/-- A scheduled action: process `pid` performs `op`. -/
structure Action where
  pid : Nat
  op : Op
deriving DecidableEq, Repr

/-! ## Primitives -/

/-- Modelled from the spec: number of open write handles on pipe `id`, over all
processes (section 3: the channel is closed "once all write handles referencing it
are closed"). -/
def openWriteHandles (s : Sys) (id : Nat) : Nat :=
  (s.procs.map (fun pr => pr.fds.handles.count (Handle.pipeWrite id))).sum

/-- Line 3, `createpipe`: a fresh pipe with a read and a write end. -/
def createpipe (s : Sys) : Pipe :=
  { read := Handle.pipeRead s.pipes.length, write := Handle.pipeWrite s.pipes.length }

/-- Line 6, `changefd new_fd std_stream`: the slot `std_stream` becomes an alias of
`new_fd`; nothing else in the table changes. -/
def changefd (t : DescriptorTable) (new_fd : Handle) (std_stream : StdStream) :
    DescriptorTable :=
  t.set std_stream (some new_fd)

/-- Result of one step of one process: the process afterwards, the child it
created (if any), the pipe buffers afterwards and the event to log. -/
structure Effect where
  proc : Proc
  spawn : Option Proc
  pipes : List (List Byte)
  event : Event

/-- Outcome of a read on a standard slot: bytes delivered from a pipe (with the pipe
and what stays buffered), end-of-stream, a read that has to wait, a read served by an
inherited object, or a slot that cannot be read. -/
inductive ReadOutcome where
  | data (pipe : Nat) (bytes : List Byte) (remaining : List Byte)
  | endOfStream
  | blocked
  | external
  | invalid
deriving DecidableEq, Repr

/-- Modelled from the spec: what a read of at most `n` bytes from `slot` yields
(section 3 and 5): buffered bytes in order when there are some; otherwise
end-of-stream once no write handle on the pipe is open, and blocking until then. -/
def readOutcome (s : Sys) (pr : Proc) (slot : StdStream) (n : Nat) : ReadOutcome :=
  match pr.fds.get slot with
  | some (Handle.pipeRead id) =>
    match s.pipes[id]? with
    | some buf =>
      if buf ≠ [] then ReadOutcome.data id (buf.take n) (buf.drop n)
      else if openWriteHandles s id = 0 then ReadOutcome.endOfStream
      else ReadOutcome.blocked
    | none => ReadOutcome.invalid
  | some (Handle.inherited _) => ReadOutcome.external
  | _ => ReadOutcome.invalid

/-- Modelled from the spec: a `run` whose name does not resolve (section 4.4): the error
is signalled and "the original process resumes", that is, it goes on after the `run`
with its table and phase as they were. The source shows no failure path. -/
@[simp] def runFailed (s : Sys) (pid : Nat) (pr : Proc) (cmd : String) (rest : List Stmt)
    (err : ExecError) : Effect :=
  { proc := { pr with code := rest },
    spawn := none,
    pipes := s.pipes,
    event := Event.execFailed pid cmd err }

/-- Modelled from the spec: the sketch shows nothing after the last statement of a
block or of the orchestrator. A process with nothing left to run ends: process exit is
the terminal state (section 4.4) and releases every handle the process holds (section
3). No statement of the sketch names a status, so the end is a normal one, status 0. -/
@[simp] def endOfSketch (s : Sys) (pid : Nat) (pr : Proc) : Effect :=
  { proc := { pr with fds := DescriptorTable.closedAll, phase := Phase.Exited 0 },
    spawn := none,
    pipes := s.pipes,
    event := Event.exited pid 0 }

/-- One sketch statement executed by process `pid`.
`createpipe` (line 12) allocates the pipe, opens a descriptor on its read end and then
one on its write end in the caller's table, and stores it in `p`;
`child` (lines 13, 18) duplicates the caller, the duplicate runs the bracketed code
and the caller continues past it;
`changefd` (lines 15, 20) rebinds one slot of the caller's own table;
`run` (lines 16, 21) replaces the process by the command and "completely stops the
ongoing process": nothing of the sketch is left to run; a name that does not resolve
is handled by `runFailed`, and a process with no statement left by `endOfSketch`. -/
def stepSketch (env : Resolution) (s : Sys) (pid : Nat) (pr : Proc) : Option Effect :=
  match pr.code with
  | [] => some (endOfSketch s pid pr)
  | Stmt.createpipe :: rest =>
    let np := createpipe s
    some { proc := { pr with
                     fds := (pr.fds.install np.read).install np.write,
                     p := some np, code := rest },
           spawn := none,
           pipes := s.pipes ++ [[]],
           event := Event.pipeCreated pid np }
  | Stmt.child body :: rest =>
    some { proc := { pr with code := rest },
           spawn := some { fds := pr.fds, p := pr.p, code := body, phase := Phase.Duplicated },
           pipes := s.pipes,
           event := Event.duplicated pid s.procs.length pr.fds }
  | Stmt.changefd e slot :: rest =>
    match pr.p with
    | none => none
    | some pp =>
      some { proc := { pr with fds := changefd pr.fds (pp.sel e) slot, code := rest,
                               phase := Phase.Remapping },
             spawn := none,
             pipes := s.pipes,
             event := Event.remapped pid slot (pp.sel e) }
  | Stmt.run cmd :: rest =>
    match env cmd with
    | none =>
      some { proc := { pr with code := [], phase := Phase.Executing ⟨cmd, []⟩ },
             spawn := none,
             pipes := s.pipes,
             event := Event.executed pid ⟨cmd, []⟩ pr.fds }
    | some err => some (runFailed s pid pr cmd rest err)

/-- Modelled from the spec: what an external command image may do to the system
(sections 3 and 5): write bytes to a standard slot (appended to the pipe buffer when
the slot is a pipe's write end), read from a standard slot, close a standard slot,
and exit with a status, which closes every handle of the process. -/
def stepImage (s : Sys) (pid : Nat) (pr : Proc) : Op → Option Effect
  | Op.sketch => none
  | Op.write slot bytes =>
    match pr.fds.get slot with
    | some (Handle.pipeWrite id) =>
      match s.pipes[id]? with
      | some buf =>
        some { proc := pr, spawn := none, pipes := s.pipes.set id (buf ++ bytes),
               event := Event.wrote pid slot bytes }
      | none => none
    | some (Handle.inherited _) =>
      some { proc := pr, spawn := none, pipes := s.pipes, event := Event.wrote pid slot bytes }
    | _ => none
  | Op.read slot n =>
    match readOutcome s pr slot n with
    | ReadOutcome.data id bytes remaining =>
      some { proc := pr, spawn := none, pipes := s.pipes.set id remaining,
             event := Event.readData pid slot bytes }
    | ReadOutcome.endOfStream =>
      some { proc := pr, spawn := none, pipes := s.pipes, event := Event.endOfStream pid slot }
    | ReadOutcome.external =>
      some { proc := pr, spawn := none, pipes := s.pipes, event := Event.readExternal pid slot }
    | _ => none
  | Op.close slot =>
    match pr.fds.get slot with
    | some _ =>
      some { proc := { pr with fds := pr.fds.set slot none }, spawn := none, pipes := s.pipes,
             event := Event.closed pid slot }
    | none => none
  | Op.exit status =>
    some { proc := { pr with fds := DescriptorTable.closedAll, phase := Phase.Exited status },
           spawn := none, pipes := s.pipes, event := Event.exited pid status }

/-- One step of one process. A process still in the sketch can only run its next
statement, or end when it has none left; a process that is an external image can only
act as an image; a process that has exited does nothing. -/
def stepProc (env : Resolution) (s : Sys) (pid : Nat) (pr : Proc) (op : Op) : Option Effect :=
  match pr.phase with
  | Phase.Executing _ => stepImage s pid pr op
  | Phase.Exited _ => none
  | _ =>
    match op with
    | Op.sketch => stepSketch env s pid pr
    | _ => none

/-- Install the effect of a step of process `pid`. -/
def Sys.apply (s : Sys) (pid : Nat) (e : Effect) : Sys :=
  { procs := s.procs.set pid e.proc ++ e.spawn.toList,
    pipes := e.pipes,
    log := s.log ++ [e.event] }

/-- One scheduled action; `none` when the action is not enabled. -/
def step (env : Resolution) (a : Action) (s : Sys) : Option Sys :=
  match s.procs[a.pid]? with
  | none => none
  | some pr => (stepProc env s a.pid pr a.op).map (s.apply a.pid)

/-- An action that is not enabled leaves the system as it is. -/
def stepOrStay (env : Resolution) (s : Sys) (a : Action) : Sys :=
  (step env a s).getD s

/-- Run a schedule from a state. -/
def exec (env : Resolution) (sched : List Action) (s : Sys) : Sys :=
  sched.foldl (stepOrStay env) s

/-- The descriptor table the orchestrator starts with: any binding of the three
standard slots to inherited objects (or closed), and any further inherited handles
on the descriptors from 3 up. -/
structure InitialTable where
  standard_in : Option Nat
  standard_out : Option Nat
  standard_error : Option Nat
  others : List Nat
deriving DecidableEq, Repr

/-- The initial table as a descriptor table. -/
def InitialTable.table (t : InitialTable) : DescriptorTable :=
  { standard_in := t.standard_in.map Handle.inherited,
    standard_out := t.standard_out.map Handle.inherited,
    standard_error := t.standard_error.map Handle.inherited,
    others := t.others.map Handle.inherited }

/-- The system before the sketch starts: one process about to run `orchestrator`. -/
def initSys (t : InitialTable) : Sys :=
  { procs := [{ fds := t.table, p := none, code := orchestrator, phase := Phase.Original }],
    pipes := [],
    log := [] }

/-- The state an execution of the sketch reaches under a schedule. -/
def runSketch (env : Resolution) (t : InitialTable) (sched : List Action) : Sys :=
  exec env sched (initSys t)

/-- The schedule that runs the sketch to completion in program order: the
orchestrator's three statements, then the two statements of each child. -/
def fullSchedule : List Action :=
  [⟨0, Op.sketch⟩, ⟨0, Op.sketch⟩, ⟨0, Op.sketch⟩,
   ⟨1, Op.sketch⟩, ⟨1, Op.sketch⟩, ⟨2, Op.sketch⟩, ⟨2, Op.sketch⟩]

/-- Every command name resolves. -/
def allResolve : Resolution := fun _ => none

/-- The pipe `p` of the sketch: the first pipe of the system. -/
def pipeP : Pipe := { read := Handle.pipeRead 0, write := Handle.pipeWrite 0 }

/-- Bytes process `pid` wrote to `slot`, in order. -/
def writtenBytes (pid : Nat) (slot : StdStream) : List Event → List Byte
  | [] => []
  | Event.wrote q sl bs :: rest =>
    if q = pid ∧ sl = slot then bs ++ writtenBytes pid slot rest else writtenBytes pid slot rest
  | _ :: rest => writtenBytes pid slot rest

/-- Bytes process `pid` read from `slot`, in order. -/
def readBytes (pid : Nat) (slot : StdStream) : List Event → List Byte
  | [] => []
  | Event.readData q sl bs :: rest =>
    if q = pid ∧ sl = slot then bs ++ readBytes pid slot rest else readBytes pid slot rest
  | _ :: rest => readBytes pid slot rest

/-- Phase of process `pid`, when it exists. -/
def Sys.phaseOf (s : Sys) (pid : Nat) : Option Phase :=
  (s.procs[pid]?).map (fun pr => pr.phase)

/-- Descriptor table of process `pid`, when it exists. -/
def Sys.fdsOf (s : Sys) (pid : Nat) : Option DescriptorTable :=
  (s.procs[pid]?).map (fun pr => pr.fds)

/-- A concrete initial table: the three slots bound to three terminal objects. -/
def tty : InitialTable :=
  { standard_in := some 0, standard_out := some 1, standard_error := some 2, others := [] }

/-! ## The reachable states of the sketch -/

/-- The three standard slots are open when the sketch starts. -/
def InitialTable.standardOpen (t : InitialTable) : Prop :=
  t.standard_in.isSome = true ∧ t.standard_out.isSome = true ∧
    t.standard_error.isSome = true

/-- An initial table with standard-input closed. -/
def stdinClosed : InitialTable :=
  { standard_in := none, standard_out := some 1, standard_error := some 2, others := [] }

/-- An initial table with standard-output closed. -/
def stdoutClosed : InitialTable :=
  { standard_in := some 0, standard_out := none, standard_error := some 2, others := [] }

/-- An initial table with standard-output and standard-error closed. -/
def outputsClosed : InitialTable :=
  { standard_in := some 0, standard_out := none, standard_error := none, others := [] }

/-- The orchestrator's table once it holds the two ends of `p`. -/
def withPipe (t : InitialTable) : DescriptorTable :=
  (t.table.install pipeP.read).install pipeP.write

/-- The block child `c` runs: the first child created runs the `wc` block. -/
def childBlock (c : Nat) : List Stmt := if c = 1 then wcBlock else lsBlock

/-- The command child `c` runs. -/
def childCmd (c : Nat) : String := if c = 1 then "wc" else "ls"

/-- The slot child `c` remaps. -/
def childSlot (c : Nat) : StdStream :=
  if c = 1 then StdStream.standard_in else StdStream.standard_out

/-- The end of `p` child `c` remaps its slot to. -/
def childEnd (c : Nat) : PipeEnd := if c = 1 then PipeEnd.read else PipeEnd.write

/-- The table of child `c` after its `changefd`. -/
def remappedTable (t : InitialTable) (c : Nat) : DescriptorTable :=
  changefd (withPipe t) (pipeP.sel (childEnd c)) (childSlot c)

/-- Table `cur` is table `full` with some standard slots closed. -/
def Narrowed (cur full : DescriptorTable) : Prop :=
  cur.others = full.others ∧ ∀ slot, cur.get slot = full.get slot ∨ cur.get slot = none

/-- The states a child process of the sketch can be in. -/
def ChildOk (t : InitialTable) (c : Nat) (pr : Proc) : Prop :=
  pr.p = some pipeP ∧
  ((pr.phase = Phase.Duplicated ∧ pr.code = childBlock c ∧ pr.fds = withPipe t) ∨
   (pr.phase = Phase.Remapping ∧ pr.code = [Stmt.run (childCmd c)] ∧
      pr.fds = remappedTable t c) ∨
   (pr.phase = Phase.Remapping ∧ pr.code = [] ∧ pr.fds = remappedTable t c) ∨
   (pr.phase = Phase.Executing ⟨childCmd c, []⟩ ∧ pr.code = [] ∧
      Narrowed pr.fds (remappedTable t c)) ∨
   (∃ st, pr.phase = Phase.Exited st ∧ pr.code = [] ∧ pr.fds = DescriptorTable.closedAll))

/-- The states the orchestrator can be in, with the number of processes and pipes
that exist at each: before `createpipe`; after `k` statements; ended. -/
def OrchOk (t : InitialTable) (s : Sys) (o : Proc) : Prop :=
  (o.phase = Phase.Original ∧ o.code = orchestrator ∧ o.p = none ∧ o.fds = t.table ∧
      s.pipes = [] ∧ s.procs.length = 1 ∧ s.log = []) ∨
  (∃ k, 1 ≤ k ∧ k ≤ 3 ∧ o.p = some pipeP ∧ s.pipes.length = 1 ∧ s.procs.length = k ∧
      Event.pipeCreated 0 pipeP ∈ s.log ∧
      ((o.phase = Phase.Original ∧ o.code = orchestrator.drop k ∧ o.fds = withPipe t) ∨
       (k = 3 ∧ o.phase = Phase.Exited 0 ∧ o.code = [] ∧
          o.fds = DescriptorTable.closedAll)))

/-- What every logged event says about the state it was logged in and every later
state. -/
def EventOk (env : Resolution) (t : InitialTable) (s : Sys) : Event → Prop
  | Event.pipeCreated pid q => pid = 0 ∧ q = pipeP
  | Event.duplicated par c fds =>
      par = 0 ∧ 1 ≤ c ∧ c < s.procs.length ∧ fds = withPipe t
  | Event.remapped c slot h =>
      1 ≤ c ∧ slot = childSlot c ∧ h = pipeP.sel (childEnd c) ∧
      ∃ ph, s.phaseOf c = some ph ∧ 1 ≤ ph.rank
  | Event.executed c img fds =>
      1 ≤ c ∧ img = ⟨childCmd c, []⟩ ∧ fds = remappedTable t c ∧
      ∃ ph, s.phaseOf c = some ph ∧ 2 ≤ ph.rank
  | Event.execFailed c cmd err =>
      1 ≤ c ∧ cmd = childCmd c ∧ env cmd = some err ∧
      ∃ pr, s.procs[c]? = some pr ∧ pr.code = [] ∧
        (pr.phase = Phase.Remapping ∨ pr.phase = Phase.Exited 0)
  | Event.endOfStream _ _ => ¬ t.standardOpen
  | _ => True

/-- The invariant of the sketch: the orchestrator and every child are in one of their
states, every logged event is accounted for, a child past `Duplicated` has logged its
remap, and, when the three standard slots were open at the start, the bytes `ls` wrote
to its standard-output are the bytes `wc` read from its standard-input followed by the
bytes still buffered in `p`. -/
structure Inv (env : Resolution) (t : InitialTable) (s : Sys) : Prop where
  orch : ∃ o, s.procs[0]? = some o ∧ OrchOk t s o
  kids : ∀ c pr, 1 ≤ c → s.procs[c]? = some pr → ChildOk t c pr
  events : ∀ e, e ∈ s.log → EventOk env t s e
  remapLogged : ∀ c pr, 1 ≤ c → s.procs[c]? = some pr → 1 ≤ pr.phase.rank →
    Event.remapped c (childSlot c) (pipeP.sel (childEnd c)) ∈ s.log
  fifo : t.standardOpen → writtenBytes 2 StdStream.standard_out s.log =
    readBytes 1 StdStream.standard_in s.log ++ s.pipes.getD 0 []

/-- The order in which the events of the sketch are logged. -/
structure LogOrder (log : List Event) : Prop where
  pipeFirst : ∀ (j par c : Nat) (fds : DescriptorTable),
    log[j]? = some (Event.duplicated par c fds) →
    ∃ i, i < j ∧ log[i]? = some (Event.pipeCreated 0 pipeP)
  remapBeforeRun : ∀ (i j c : Nat) (slot : StdStream) (hd : Handle) (img : Image)
    (fds : DescriptorTable), log[i]? = some (Event.remapped c slot hd) →
    log[j]? = some (Event.executed c img fds) → i < j
  runAfterRemap : ∀ (j c : Nat) (img : Image) (fds : DescriptorTable),
    log[j]? = some (Event.executed c img fds) →
    ∃ i, i < j ∧ log[i]? = some (Event.remapped c (childSlot c) (pipeP.sel (childEnd c)))
  readerFirst : ∀ (i j : Nat) (f₁ f₂ : DescriptorTable),
    log[i]? = some (Event.duplicated 0 1 f₁) → log[j]? = some (Event.duplicated 0 2 f₂) → i < j

/-- A run in which `ls` writes three bytes and `wc` then reads them in two reads. -/
def pipedRun : List Action :=
  fullSchedule ++ [⟨2, Op.write StdStream.standard_out [108, 115, 10]⟩,
    ⟨1, Op.read StdStream.standard_in 2⟩, ⟨1, Op.read StdStream.standard_in 2⟩]

/-- The run in which the sketch completes and `ls` then exits without writing. -/
def silentWriterRun : List Action :=
  fullSchedule ++ [⟨2, Op.exit 0⟩]

/-- The schedule in which only the orchestrator runs, to the end of the sketch. -/
def orchestratorOnly : List Action :=
  [⟨0, Op.sketch⟩, ⟨0, Op.sketch⟩, ⟨0, Op.sketch⟩]

/-- The sketch run to completion, after which the `wc` image exits. -/
def readerExitsRun : List Action :=
  fullSchedule ++ [⟨1, Op.exit 0⟩]

/-- The sketch run to completion, after which the orchestrator, which has nothing left
to run, ends. -/
def orchestratorEndsRun : List Action :=
  fullSchedule ++ [⟨0, Op.sketch⟩]

/-- The sketch run to completion, after which `ls` exits without writing and the
orchestrator ends: only the `wc` image is left. -/
def readerAloneRun : List Action :=
  silentWriterRun ++ [⟨0, Op.sketch⟩]

/-- The sketch run to completion, after which `ls` writes one byte to its
standard-error and nothing to its standard-output, and `wc` reads one byte from its
standard-input. -/
def strayErrorRun : List Action :=
  fullSchedule ++ [⟨2, Op.write StdStream.standard_error [69]⟩,
    ⟨1, Op.read StdStream.standard_in 1⟩]

/-! ## Generic facts about one step -/

theorem step_eq_some {env : Resolution} {a : Action} {s s' : Sys}
    (h : step env a s = some s') :
    ∃ pr eff, s.procs[a.pid]? = some pr ∧ stepProc env s a.pid pr a.op = some eff ∧
      s' = s.apply a.pid eff := by
  unfold step at h
  cases hp : s.procs[a.pid]? with
  | none => simp [hp] at h
  | some pr =>
    simp only [hp, Option.map_eq_some'] at h
    obtain ⟨eff, he, rfl⟩ := h
    exact ⟨pr, eff, rfl, he, rfl⟩

theorem apply_log (s : Sys) (pid : Nat) (e : Effect) :
    (s.apply pid e).log = s.log ++ [e.event] := rfl

theorem apply_pipes (s : Sys) (pid : Nat) (e : Effect) :
    (s.apply pid e).pipes = e.pipes := rfl

theorem apply_get_self (s : Sys) (pid : Nat) (e : Effect) (h : pid < s.procs.length) :
    (s.apply pid e).procs[pid]? = some e.proc := by
  simp [Sys.apply, List.getElem?_append, h]

theorem apply_get_other (s : Sys) (pid q : Nat) (e : Effect) (hq : q ≠ pid)
    (h : q < s.procs.length) : (s.apply pid e).procs[q]? = s.procs[q]? := by
  simp [Sys.apply, List.getElem?_append, h, List.getElem?_set, Ne.symm hq]

theorem apply_get_new (s : Sys) (pid : Nat) (e : Effect) :
    (s.apply pid e).procs[s.procs.length]? = e.spawn := by
  cases hsp : e.spawn <;> simp [Sys.apply, List.getElem?_append, hsp]

theorem apply_length (s : Sys) (pid : Nat) (e : Effect) :
    (s.apply pid e).procs.length = s.procs.length + e.spawn.toList.length := by
  simp [Sys.apply]

theorem apply_get_beyond (s : Sys) (pid q : Nat) (e : Effect)
    (h : s.procs.length + e.spawn.toList.length ≤ q) : (s.apply pid e).procs[q]? = none := by
  apply List.getElem?_eq_none
  rw [apply_length]; exact h

theorem apply_get_old (s : Sys) (pid q : Nat) (e : Effect) (pr : Proc)
    (h : (s.apply pid e).procs[q]? = some pr) (hq : q ≠ pid) (hn : e.spawn = none) :
    s.procs[q]? = some pr := by
  by_cases hlt : q < s.procs.length
  · rw [apply_get_other s pid q e hq hlt] at h; exact h
  · have : (s.apply pid e).procs.length ≤ q := by
      rw [apply_length, hn]; simp; omega
    rw [List.getElem?_eq_none this] at h
    exact absurd h (by simp)

theorem stepSketch_phase {env : Resolution} {s : Sys} {pid : Nat} {pr : Proc} {eff : Effect}
    (h : stepSketch env s pid pr = some eff) (hr : pr.phase.rank ≤ 1) :
    pr.phase.rank ≤ eff.proc.phase.rank ∧
      (eff.proc.phase = Phase.Duplicated → pr.phase = Phase.Duplicated) := by
  unfold stepSketch at h
  split at h
  · simp at h; subst h
    refine ⟨?_, by simp⟩
    show pr.phase.rank ≤ 2
    omega
  · simp at h; subst h; simp
  · simp at h; subst h; simp
  · split at h
    · simp at h
    · simp at h; subst h; exact ⟨hr, by simp⟩
  · split at h
    · simp at h; subst h
      refine ⟨?_, by simp⟩
      show pr.phase.rank ≤ 2
      omega
    · simp at h; subst h; simp

theorem stepImage_phase {s : Sys} {pid : Nat} {pr : Proc} {op : Op} {eff : Effect}
    (h : stepImage s pid pr op = some eff) (hr : pr.phase.rank = 2) :
    pr.phase.rank ≤ eff.proc.phase.rank ∧
      (eff.proc.phase = Phase.Duplicated → pr.phase = Phase.Duplicated) := by
  cases op with
  | sketch => simp [stepImage] at h
  | write slot bytes =>
    simp only [stepImage] at h
    split at h
    · split at h
      · simp at h; subst h; simp
      · simp at h
    · simp at h; subst h; simp
    · simp at h
  | read slot n =>
    simp only [stepImage] at h
    split at h <;> simp at h <;> subst h <;> simp
  | close slot =>
    simp only [stepImage] at h
    split at h <;> simp at h
    subst h; simp
  | exit st =>
    simp only [stepImage] at h
    simp at h; subst h
    refine ⟨?_, by simp⟩
    show pr.phase.rank ≤ 2
    omega

theorem stepProc_phase {env : Resolution} {s : Sys} {pid : Nat} {pr : Proc} {op : Op}
    {eff : Effect} (h : stepProc env s pid pr op = some eff) :
    pr.phase.rank ≤ eff.proc.phase.rank ∧
      (eff.proc.phase = Phase.Duplicated → pr.phase = Phase.Duplicated) := by
  unfold stepProc at h
  cases hph : pr.phase with
  | Executing img =>
    rw [hph] at h; simp only at h
    have := stepImage_phase h (by simp [hph, Phase.rank])
    rw [hph] at this; exact this
  | Exited st => rw [hph] at h; simp at h
  | Original =>
    rw [hph] at h
    cases op <;> simp at h
    have := stepSketch_phase h (by simp [hph, Phase.rank])
    rw [hph] at this; exact this
  | Duplicated =>
    rw [hph] at h
    cases op <;> simp at h
    have := stepSketch_phase h (by simp [hph, Phase.rank])
    rw [hph] at this; exact this
  | Remapping =>
    rw [hph] at h
    cases op <;> simp at h
    have := stepSketch_phase h (by simp [hph, Phase.rank])
    rw [hph] at this; exact this

/-- A process that has exited takes no step. -/
theorem stepProc_exited {env : Resolution} {s : Sys} {pid : Nat} {pr : Proc} {op : Op}
    {st : Nat} (hph : pr.phase = Phase.Exited st) : stepProc env s pid pr op = none := by
  unfold stepProc
  rw [hph]

/-- A process still in the sketch with nothing left to run can only end, with
status 0, releasing its handles. -/
theorem stepProc_code_nil {env : Resolution} {s : Sys} {pid : Nat} {pr : Proc} {op : Op}
    {eff : Effect} (hc : pr.code = []) (hr : pr.phase.rank ≤ 1)
    (h : stepProc env s pid pr op = some eff) :
    op = Op.sketch ∧ eff = endOfSketch s pid pr := by
  unfold stepProc at h
  cases hph : pr.phase with
  | Executing img => simp [hph, Phase.rank] at hr
  | Exited st => simp [hph, Phase.rank] at hr
  | Original =>
    rw [hph] at h
    cases op <;> simp [stepSketch, hc] at h
    exact ⟨rfl, by rw [← h]; simp [hc]⟩
  | Duplicated =>
    rw [hph] at h
    cases op <;> simp [stepSketch, hc] at h
    exact ⟨rfl, by rw [← h]; simp [hc]⟩
  | Remapping =>
    rw [hph] at h
    cases op <;> simp [stepSketch, hc] at h
    exact ⟨rfl, by rw [← h]; simp [hc]⟩

/-- A step never removes a process, never lowers a phase, never returns a process to
`Duplicated`, leaves an exited process as it is, and can only end a process that has
nothing left to run. -/
theorem step_mono {env : Resolution} {a : Action} {s s' : Sys}
    (h : step env a s = some s') :
    s.procs.length ≤ s'.procs.length ∧
    ∀ (c : Nat) (pr : Proc), s.procs[c]? = some pr →
      ∃ pr' : Proc, s'.procs[c]? = some pr' ∧ pr.phase.rank ≤ pr'.phase.rank ∧
        (pr'.phase = Phase.Duplicated → pr.phase = Phase.Duplicated) ∧
        (pr.phase.rank ≤ 1 → pr.code = [] →
          pr' = pr ∨ (pr'.phase = Phase.Exited 0 ∧ pr'.code = [])) ∧
        (∀ st, pr.phase = Phase.Exited st → pr' = pr) := by
  obtain ⟨pr0, eff, hget, hstep, rfl⟩ := step_eq_some h
  have hlt : a.pid < s.procs.length := (List.getElem?_eq_some_iff.mp hget).1
  refine ⟨by rw [apply_length]; omega, ?_⟩
  intro c pr hc
  have hclt : c < s.procs.length := (List.getElem?_eq_some_iff.mp hc).1
  by_cases hcp : c = a.pid
  · subst hcp
    rw [hget] at hc
    cases hc
    refine ⟨eff.proc, apply_get_self s _ eff hlt, (stepProc_phase hstep).1,
      (stepProc_phase hstep).2, ?_, ?_⟩
    · intro hr hnil
      obtain ⟨-, rfl⟩ := stepProc_code_nil hnil hr hstep
      exact Or.inr ⟨rfl, hnil⟩
    · intro st hst
      rw [stepProc_exited hst] at hstep
      exact absurd hstep (by simp)
  · exact ⟨pr, by rw [apply_get_other s _ c eff hcp hclt]; exact hc, le_refl _,
      fun h => h, fun _ _ => Or.inl rfl, fun _ _ => rfl⟩

theorem phaseOf_eq_some {s : Sys} {c : Nat} {ph : Phase} (h : s.phaseOf c = some ph) :
    ∃ pr, s.procs[c]? = some pr ∧ pr.phase = ph := by
  unfold Sys.phaseOf at h
  cases hp : s.procs[c]? with
  | none => simp [hp] at h
  | some pr => simp [hp] at h; exact ⟨pr, rfl, h⟩

theorem phaseOf_of_get {s : Sys} {c : Nat} {pr : Proc} (h : s.procs[c]? = some pr) :
    s.phaseOf c = some pr.phase := by
  simp [Sys.phaseOf, h]

theorem EventOk.mono {env : Resolution} {t : InitialTable} {a : Action} {s s' : Sys}
    (h : step env a s = some s') {e : Event} (he : EventOk env t s e) :
    EventOk env t s' e := by
  obtain ⟨hlen, hmono⟩ := step_mono h
  cases e with
  | pipeCreated pid q => exact he
  | duplicated par c fds =>
    obtain ⟨h1, h2, h3, h4⟩ := he
    exact ⟨h1, h2, by omega, h4⟩
  | remapped c slot hd =>
    obtain ⟨h1, h2, h3, ph, hph, hr⟩ := he
    obtain ⟨pr, hpr, rfl⟩ := phaseOf_eq_some hph
    obtain ⟨pr', hpr', hrk, -, -, -⟩ := hmono c pr hpr
    exact ⟨h1, h2, h3, pr'.phase, phaseOf_of_get hpr', by omega⟩
  | executed c img fds =>
    obtain ⟨h1, h2, h3, ph, hph, hr⟩ := he
    obtain ⟨pr, hpr, rfl⟩ := phaseOf_eq_some hph
    obtain ⟨pr', hpr', hrk, -, -, -⟩ := hmono c pr hpr
    exact ⟨h1, h2, h3, pr'.phase, phaseOf_of_get hpr', by omega⟩
  | execFailed c cmd err =>
    obtain ⟨h1, h2, h3, pr, hpr, hcode, hph⟩ := he
    obtain ⟨pr', hpr', -, -, hend, hsame⟩ := hmono c pr hpr
    rcases hph with hph | hph
    · rcases hend (by rw [hph]; decide) hcode with rfl | ⟨hp', hc'⟩
      · exact ⟨h1, h2, h3, pr', hpr', hcode, Or.inl hph⟩
      · exact ⟨h1, h2, h3, pr', hpr', hc', Or.inr hp'⟩
    · have : pr' = pr := hsame 0 hph
      subst this
      exact ⟨h1, h2, h3, pr', hpr', hcode, Or.inr hph⟩
  | endOfStream pid slot => exact he
  | wrote _ _ _ => trivial
  | readData _ _ _ => trivial
  | readExternal _ _ => trivial
  | closed _ _ => trivial
  | exited _ _ => trivial

theorem writtenBytes_append (pid : Nat) (slot : StdStream) (l₁ l₂ : List Event) :
    writtenBytes pid slot (l₁ ++ l₂) = writtenBytes pid slot l₁ ++ writtenBytes pid slot l₂ := by
  induction l₁ with
  | nil => simp [writtenBytes]
  | cons e l ih =>
    cases e <;> simp [writtenBytes, ih]
    split <;> simp

theorem readBytes_append (pid : Nat) (slot : StdStream) (l₁ l₂ : List Event) :
    readBytes pid slot (l₁ ++ l₂) = readBytes pid slot l₁ ++ readBytes pid slot l₂ := by
  induction l₁ with
  | nil => simp [readBytes]
  | cons e l ih =>
    cases e <;> simp [readBytes, ih]
    split <;> simp

/-! ## Descriptor tables of the sketch -/

theorem table_get_ne_pipeRead (t : InitialTable) (slot : StdStream) (id : Nat) :
    t.table.get slot ≠ some (Handle.pipeRead id) := by
  cases slot <;> simp [InitialTable.table, DescriptorTable.get]

theorem table_get_ne_pipeWrite (t : InitialTable) (slot : StdStream) (id : Nat) :
    t.table.get slot ≠ some (Handle.pipeWrite id) := by
  cases slot <;> simp [InitialTable.table, DescriptorTable.get]

theorem get_set (d : DescriptorTable) (slot slot' : StdStream) (h : Option Handle) :
    (d.set slot h).get slot' = if slot' = slot then h else d.get slot' := by
  cases slot <;> cases slot' <;> simp [DescriptorTable.set, DescriptorTable.get]

theorem set_others (d : DescriptorTable) (slot : StdStream) (h : Option Handle) :
    (d.set slot h).others = d.others := by
  cases slot <;> rfl

/-- With the three standard slots open, both ends of a new pipe land above them. -/
theorem withPipe_open {t : InitialTable} (hopen : t.standardOpen) :
    withPipe t = { t.table with others := t.table.others ++ [pipeP.read, pipeP.write] } := by
  obtain ⟨a, b, c, o⟩ := t
  obtain ⟨h1, h2, h3⟩ := hopen
  cases a <;> cases b <;> cases c <;> simp at h1 h2 h3
  simp [withPipe, DescriptorTable.install, InitialTable.table]

theorem withPipe_get {t : InitialTable} (hopen : t.standardOpen) (slot : StdStream) :
    (withPipe t).get slot = t.table.get slot := by
  rw [withPipe_open hopen]
  cases slot <;> rfl

theorem withPipe_others {t : InitialTable} (hopen : t.standardOpen) :
    (withPipe t).others = t.table.others ++ [pipeP.read, pipeP.write] := by
  rw [withPipe_open hopen]

/-- Whatever the initial table, after `createpipe` the table holds both ends of `p`. -/
theorem withPipe_handles (t : InitialTable) :
    pipeP.read ∈ (withPipe t).handles ∧ pipeP.write ∈ (withPipe t).handles := by
  obtain ⟨a, b, c, o⟩ := t
  cases a <;> cases b <;> cases c <;>
    simp [withPipe, DescriptorTable.install, InitialTable.table, DescriptorTable.handles, pipeP]

theorem remappedTable_get (t : InitialTable) (c : Nat) (slot : StdStream) :
    (remappedTable t c).get slot =
      if slot = childSlot c then some (pipeP.sel (childEnd c)) else (withPipe t).get slot := by
  simp [remappedTable, changefd, get_set]

theorem remappedTable_others (t : InitialTable) (c : Nat) :
    (remappedTable t c).others = (withPipe t).others := by
  simp [remappedTable, changefd, set_others]

theorem remappedTable_get_pipeWrite {t : InitialTable} (hopen : t.standardOpen) {c : Nat}
    {slot : StdStream} {id : Nat}
    (h : (remappedTable t c).get slot = some (Handle.pipeWrite id)) :
    c ≠ 1 ∧ slot = StdStream.standard_out ∧ id = 0 := by
  rw [remappedTable_get] at h
  split at h
  · rename_i hs
    by_cases hc : c = 1
    · simp [childEnd, hc, pipeP, Pipe.sel] at h
    · simp [childEnd, hc, pipeP, Pipe.sel] at h
      simp [childSlot, hc] at hs
      exact ⟨hc, hs, h.symm⟩
  · rw [withPipe_get hopen] at h
    exact absurd h (table_get_ne_pipeWrite t slot id)

theorem remappedTable_get_pipeRead {t : InitialTable} (hopen : t.standardOpen) {c : Nat}
    {slot : StdStream} {id : Nat}
    (h : (remappedTable t c).get slot = some (Handle.pipeRead id)) :
    c = 1 ∧ slot = StdStream.standard_in ∧ id = 0 := by
  rw [remappedTable_get] at h
  split at h
  · rename_i hs
    by_cases hc : c = 1
    · simp [childEnd, hc, pipeP, Pipe.sel] at h
      simp [childSlot, hc] at hs
      exact ⟨hc, hs, h.symm⟩
    · simp [childEnd, hc, pipeP, Pipe.sel] at h
  · rw [withPipe_get hopen] at h
    exact absurd h (table_get_ne_pipeRead t slot id)

theorem Narrowed.get_eq {cur full : DescriptorTable} (h : Narrowed cur full) {slot : StdStream}
    {hd : Handle} (hg : cur.get slot = some hd) : full.get slot = some hd := by
  rcases h.2 slot with h1 | h1
  · rw [← h1]; exact hg
  · rw [h1] at hg; exact absurd hg (by simp)

theorem Narrowed.close {cur full : DescriptorTable} (h : Narrowed cur full) (slot : StdStream) :
    Narrowed (cur.set slot none) full := by
  refine ⟨by rw [set_others]; exact h.1, ?_⟩
  intro slot'
  rw [get_set]
  split
  · exact Or.inr rfl
  · exact h.2 slot'

theorem mem_handles_of_others {d : DescriptorTable} {h : Handle} (hm : h ∈ d.others) :
    h ∈ d.handles := by
  simp [DescriptorTable.handles, hm]

/-- A write handle held by any process counts among the open write handles. -/
theorem openWriteHandles_pos {s : Sys} {c : Nat} {pr : Proc} {id : Nat}
    (hc : s.procs[c]? = some pr) (hw : Handle.pipeWrite id ∈ pr.fds.handles) :
    0 < openWriteHandles s id := by
  have hmem : pr ∈ s.procs := List.mem_iff_getElem?.mpr ⟨c, hc⟩
  have hcount : 0 < pr.fds.handles.count (Handle.pipeWrite id) := List.count_pos_iff.mpr hw
  unfold openWriteHandles
  generalize s.procs = l at hmem
  induction l with
  | nil => simp at hmem
  | cons a rest ih =>
    simp only [List.map_cons, List.sum_cons]
    rcases List.mem_cons.mp hmem with rfl | h
    · omega
    · have := ih h
      omega

/-! ## The invariant is preserved -/

theorem Inv.init (env : Resolution) (t : InitialTable) : Inv env t (initSys t) where
  orch := ⟨_, rfl, Or.inl ⟨rfl, rfl, rfl, rfl, rfl, rfl, rfl⟩⟩
  kids := by
    intro c pr hc hget
    have : (initSys t).procs.length ≤ c := by simp [initSys]; omega
    rw [List.getElem?_eq_none this] at hget
    exact absurd hget (by simp)
  events := by intro e he; simp [initSys] at he
  remapLogged := by
    intro c pr hc hget
    have : (initSys t).procs.length ≤ c := by simp [initSys]; omega
    rw [List.getElem?_eq_none this] at hget
    exact absurd hget (by simp)
  fifo := by intro _; simp [initSys, writtenBytes, readBytes]

/-- Rebuild the invariant after a step of the orchestrator that leaves the processes
that already exist alone and may add process `k`. -/
theorem Inv.build_orch {env : Resolution} {t : InitialTable} {s : Sys} (hI : Inv env t s)
    (eff : Effect) (k : Nat) (hk : 1 ≤ k) (hlen : s.procs.length = k)
    (hmono : ∀ e, EventOk env t s e → EventOk env t (s.apply 0 eff) e)
    (horch : OrchOk t (s.apply 0 eff) eff.proc)
    (hspawn : ∀ kid, eff.spawn = some kid →
      kid.p = some pipeP ∧ kid.phase = Phase.Duplicated ∧ kid.code = childBlock k ∧
        kid.fds = withPipe t)
    (hev : EventOk env t (s.apply 0 eff) eff.event)
    (hw : writtenBytes 2 StdStream.standard_out [eff.event] = [])
    (hr : readBytes 1 StdStream.standard_in [eff.event] = [])
    (hpipes : eff.pipes.getD 0 [] = s.pipes.getD 0 []) :
    Inv env t (s.apply 0 eff) := by
  have hlt : 0 < s.procs.length := by omega
  have hold : ∀ (c : Nat) (pr : Proc), 1 ≤ c → (s.apply 0 eff).procs[c]? = some pr →
      (c < k ∧ s.procs[c]? = some pr) ∨ (c = k ∧ eff.spawn = some pr) := by
    intro c pr hc1 hget
    rcases Nat.lt_trichotomy c k with hlt' | heq | hgt
    · rw [apply_get_other s 0 c eff (by omega) (by omega)] at hget
      exact Or.inl ⟨hlt', hget⟩
    · subst heq
      rw [← hlen, apply_get_new] at hget
      exact Or.inr ⟨rfl, hget⟩
    · cases hsp : eff.spawn with
      | none =>
        rw [apply_get_beyond s 0 c eff (by simp [hsp]; omega)] at hget
        exact absurd hget (by simp)
      | some kid =>
        rw [apply_get_beyond s 0 c eff (by simp [hsp]; omega)] at hget
        exact absurd hget (by simp)
  refine ⟨⟨_, apply_get_self s 0 eff hlt, horch⟩, ?_, ?_, ?_, ?_⟩
  · intro c pr hc1 hget
    rcases hold c pr hc1 hget with ⟨-, h⟩ | ⟨rfl, h⟩
    · exact hI.kids c pr hc1 h
    · obtain ⟨h1, h2, h3, h4⟩ := hspawn pr h
      exact ⟨h1, Or.inl ⟨h2, h3, h4⟩⟩
  · intro e he
    simp only [apply_log, List.mem_append, List.mem_singleton] at he
    rcases he with he | rfl
    · exact hmono e (hI.events e he)
    · exact hev
  · intro c pr hc1 hget hrk
    rcases hold c pr hc1 hget with ⟨-, h⟩ | ⟨rfl, h⟩
    · simp only [apply_log, List.mem_append]
      exact Or.inl (hI.remapLogged c pr hc1 h hrk)
    · obtain ⟨-, h2, -, -⟩ := hspawn pr h
      rw [h2] at hrk
      exact absurd hrk (by decide)
  · intro hopen
    simp only [apply_log, apply_pipes, writtenBytes_append, readBytes_append, hw, hr, hpipes]
    simpa using hI.fifo hopen

/-- A step of the orchestrator preserves the invariant. -/
theorem Inv.step_orch {env : Resolution} {t : InitialTable} {s : Sys} {op : Op}
    {o : Proc} {eff : Effect} (hI : Inv env t s) (ho : s.procs[0]? = some o)
    (hstep : stepProc env s 0 o op = some eff)
    (hmono : ∀ e, EventOk env t s e → EventOk env t (s.apply 0 eff) e) :
    Inv env t (s.apply 0 eff) := by
  obtain ⟨o', ho', hcases⟩ := hI.orch
  rw [ho] at ho'; cases ho'
  have hlt : 0 < s.procs.length := (List.getElem?_eq_some_iff.mp ho).1
  rcases hcases with ⟨hph, hc, hp, hf, hpipes, hlen, hlog⟩ |
    ⟨k, hk1, hk3, hp, hpipes, hlen, hmem, ⟨hph, hc, hf⟩ | ⟨rfl, hph, hc, hf⟩⟩
  · -- `p = createpipe()`
    unfold stepProc at hstep
    rw [hph] at hstep
    cases op <;> simp at hstep
    unfold stepSketch at hstep
    rw [hc] at hstep
    simp [orchestrator, createpipe, hpipes] at hstep
    subst hstep
    apply Inv.build_orch hI _ 1 (le_refl _) hlen hmono
    · refine Or.inr ⟨1, le_refl _, by omega, rfl, ?_, ?_, ?_, Or.inl ⟨hph, ?_, ?_⟩⟩
      · simp [apply_pipes]
      · simp [apply_length, hlen]
      · simp [apply_log, pipeP]
      · simp [orchestrator]
      · simp [withPipe, hf, pipeP]
    · intro kid hk; simp at hk
    · exact ⟨rfl, rfl⟩
    · simp [writtenBytes]
    · simp [readBytes]
    · simp [hpipes]
  · unfold stepProc at hstep
    rw [hph] at hstep
    cases op <;> simp at hstep
    unfold stepSketch at hstep
    have hk : k = 1 ∨ k = 2 ∨ k = 3 := by omega
    rcases hk with rfl | rfl | rfl
    · -- first `child`
      rw [hc] at hstep
      simp [orchestrator] at hstep
      subst hstep
      apply Inv.build_orch hI _ 1 (le_refl _) hlen hmono
      · refine Or.inr ⟨2, by omega, by omega, hp, ?_, ?_, ?_, Or.inl ⟨hph, ?_, hf⟩⟩
        · simpa [apply_pipes] using hpipes
        · simp [apply_length, hlen]
        · simp [apply_log, hmem]
        · simp [orchestrator]
      · intro kid hk
        simp at hk; subst hk
        exact ⟨hp, rfl, by simp [childBlock], hf⟩
      · exact ⟨rfl, by omega, by simp [apply_length, hlen], hf⟩
      · simp [writtenBytes]
      · simp [readBytes]
      · rfl
    · -- second `child`
      rw [hc] at hstep
      simp [orchestrator] at hstep
      subst hstep
      apply Inv.build_orch hI _ 2 (by omega) hlen hmono
      · refine Or.inr ⟨3, by omega, by omega, hp, ?_, ?_, ?_, Or.inl ⟨hph, ?_, hf⟩⟩
        · simpa [apply_pipes] using hpipes
        · simp [apply_length, hlen]
        · simp [apply_log, hmem]
        · simp [orchestrator]
      · intro kid hk
        simp at hk; subst hk
        exact ⟨hp, rfl, by simp [childBlock], hf⟩
      · exact ⟨rfl, by omega, by simp [apply_length, hlen], hf⟩
      · simp [writtenBytes]
      · simp [readBytes]
      · rfl
    · -- end of the sketch
      rw [hc] at hstep
      simp [orchestrator] at hstep
      subst hstep
      apply Inv.build_orch hI _ 3 (by omega) hlen hmono
      · refine Or.inr ⟨3, by omega, by omega, hp, ?_, ?_, ?_, Or.inr ⟨rfl, rfl, ?_, rfl⟩⟩
        · simpa [apply_pipes] using hpipes
        · simp [apply_length, hlen]
        · simp [apply_log, hmem]
        · simpa [orchestrator] using hc
      · intro kid hk; simp at hk
      · trivial
      · simp [writtenBytes]
      · simp [readBytes]
      · rfl
  · rw [stepProc_exited hph] at hstep
    exact absurd hstep (by simp)

/-- Rebuild the invariant after a step of child `pid` that creates no process. -/
theorem Inv.build_kid {env : Resolution} {t : InitialTable} {s : Sys} (hI : Inv env t s)
    {pid : Nat} {pr : Proc} (hget : s.procs[pid]? = some pr) (hpid : 1 ≤ pid) (eff : Effect)
    (hmono : ∀ e, EventOk env t s e → EventOk env t (s.apply pid eff) e)
    (hspawn : eff.spawn = none) (hkid : ChildOk t pid eff.proc)
    (hlenp : eff.pipes.length = s.pipes.length)
    (hev : EventOk env t (s.apply pid eff) eff.event)
    (hremap : 1 ≤ eff.proc.phase.rank →
      Event.remapped pid (childSlot pid) (pipeP.sel (childEnd pid)) ∈ s.log ++ [eff.event])
    (hfifo : t.standardOpen → writtenBytes 2 StdStream.standard_out (s.log ++ [eff.event]) =
      readBytes 1 StdStream.standard_in (s.log ++ [eff.event]) ++ eff.pipes.getD 0 []) :
    Inv env t (s.apply pid eff) := by
  have hlt : pid < s.procs.length := (List.getElem?_eq_some_iff.mp hget).1
  obtain ⟨o, ho, hcases⟩ := hI.orch
  have hold : ∀ (c : Nat) (q : Proc), (s.apply pid eff).procs[c]? = some q → c ≠ pid →
      s.procs[c]? = some q := fun c q h hne => apply_get_old s pid c eff q h hne hspawn
  refine ⟨⟨o, ?_, ?_⟩, ?_, ?_, ?_, ?_⟩
  · rw [apply_get_other s pid 0 eff (by omega) (by omega)]; exact ho
  · rcases hcases with ⟨-, -, -, -, -, hlen, -⟩ | ⟨k, hk1, hk3, hp, hpipes, hlen, hmem, hst⟩
    · omega
    · refine Or.inr ⟨k, hk1, hk3, hp, ?_, ?_, ?_, hst⟩
      · rw [apply_pipes, hlenp]; exact hpipes
      · rw [apply_length, hspawn]; simpa using hlen
      · rw [apply_log]; exact List.mem_append_left _ hmem
  · intro c q hc1 hq
    by_cases hcp : c = pid
    · subst hcp
      rw [apply_get_self s c eff hlt] at hq
      cases hq
      exact hkid
    · exact hI.kids c q hc1 (hold c q hq hcp)
  · intro e he
    simp only [apply_log, List.mem_append, List.mem_singleton] at he
    rcases he with he | rfl
    · exact hmono e (hI.events e he)
    · exact hev
  · intro c q hc1 hq hrk
    by_cases hcp : c = pid
    · subst hcp
      rw [apply_get_self s c eff hlt] at hq
      cases hq
      exact hremap hrk
    · rw [apply_log]
      exact List.mem_append_left _ (hI.remapLogged c q hc1 (hold c q hq hcp) hrk)
  · intro hopen
    rw [apply_log, apply_pipes]; exact hfifo hopen

theorem Inv.procs_length_le {env : Resolution} {t : InitialTable} {s : Sys}
    (hI : Inv env t s) : s.procs.length ≤ 3 := by
  obtain ⟨o, -, hcases⟩ := hI.orch
  rcases hcases with ⟨-, -, -, -, -, hlen, -⟩ | ⟨k, -, hk3, -, -, hlen, -, -⟩ <;> omega

theorem Inv.pipes_length {env : Resolution} {t : InitialTable} {s : Sys}
    (hI : Inv env t s) (h : 1 < s.procs.length) : s.pipes.length = 1 := by
  obtain ⟨o, ho, hcases⟩ := hI.orch
  rcases hcases with ⟨-, -, -, -, -, hlen, -⟩ | ⟨k, -, -, -, hpipes, -, -, -⟩
  · omega
  · exact hpipes

theorem Inv.pipes_length_le {env : Resolution} {t : InitialTable} {s : Sys}
    (hI : Inv env t s) : s.pipes.length ≤ 1 := by
  obtain ⟨o, ho, hcases⟩ := hI.orch
  rcases hcases with ⟨-, -, -, -, hp, -, -⟩ | ⟨k, -, -, -, hpipes, -, -, -⟩
  · simp [hp]
  · omega

theorem childBlock_eq (c : Nat) :
    childBlock c = [Stmt.changefd (childEnd c) (childSlot c), Stmt.run (childCmd c)] := by
  unfold childBlock childEnd childSlot childCmd
  split <;> rfl

theorem readOutcome_data {s : Sys} {pr : Proc} {slot : StdStream} {n id : Nat}
    {bytes remaining : List Byte}
    (h : readOutcome s pr slot n = ReadOutcome.data id bytes remaining) :
    pr.fds.get slot = some (Handle.pipeRead id) ∧
      ∃ buf, s.pipes[id]? = some buf ∧ bytes = buf.take n ∧ remaining = buf.drop n := by
  unfold readOutcome at h
  split at h
  · rename_i id' hslot
    split at h
    · rename_i buf hbuf
      split at h
      · simp at h
        obtain ⟨rfl, rfl, rfl⟩ := h
        exact ⟨hslot, buf, hbuf, rfl, rfl⟩
      · split at h <;> simp at h
    · simp at h
  · simp at h
  · simp at h

theorem readOutcome_endOfStream {s : Sys} {pr : Proc} {slot : StdStream} {n : Nat}
    (h : readOutcome s pr slot n = ReadOutcome.endOfStream) :
    ∃ id buf, pr.fds.get slot = some (Handle.pipeRead id) ∧ s.pipes[id]? = some buf ∧
      openWriteHandles s id = 0 := by
  unfold readOutcome at h
  split at h
  · rename_i id hslot
    split at h
    · rename_i buf hbuf
      split at h
      · simp at h
      · split at h
        · rename_i hz
          exact ⟨id, buf, hslot, hbuf, hz⟩
        · simp at h
    · simp at h
  · simp at h
  · simp at h

/-- A step of a child preserves the invariant. -/
theorem Inv.step_kid {env : Resolution} {t : InitialTable} {s : Sys} {op : Op} {pid : Nat}
    {pr : Proc} {eff : Effect} (hI : Inv env t s) (hpid : 1 ≤ pid)
    (hget : s.procs[pid]? = some pr) (hstep : stepProc env s pid pr op = some eff)
    (hmono : ∀ e, EventOk env t s e → EventOk env t (s.apply pid eff) e) :
    Inv env t (s.apply pid eff) := by
  have hlt : pid < s.procs.length := (List.getElem?_eq_some_iff.mp hget).1
  have hlen3 := hI.procs_length_le
  have hpipe1 := hI.pipes_length (by omega)
  obtain ⟨hp, hk⟩ := hI.kids pid pr hpid hget
  have hself : ∀ e : Effect, (s.apply pid e).phaseOf pid = some e.proc.phase := by
    intro e; simp [Sys.phaseOf, apply_get_self s pid e hlt]
  have hquiet : ∀ ev : Event, writtenBytes 2 StdStream.standard_out [ev] = [] →
      readBytes 1 StdStream.standard_in [ev] = [] → t.standardOpen →
      writtenBytes 2 StdStream.standard_out (s.log ++ [ev]) =
        readBytes 1 StdStream.standard_in (s.log ++ [ev]) ++ s.pipes.getD 0 [] := by
    intro ev h1 h2 hopen
    rw [writtenBytes_append, readBytes_append, h1, h2]
    simpa using hI.fifo hopen
  rcases hk with ⟨hph, hcode, hfds⟩ | ⟨hph, hcode, hfds⟩ | ⟨hph, hcode, hfds⟩ |
    ⟨hph, hcode, hfds⟩ | ⟨st, hph, hcode, hfds⟩
  · -- `Duplicated`: the `changefd` statement
    unfold stepProc at hstep
    rw [hph] at hstep
    cases op <;> simp at hstep
    unfold stepSketch at hstep
    rw [hcode, childBlock_eq, hp] at hstep
    simp at hstep
    subst hstep
    apply Inv.build_kid hI hget hpid _ hmono rfl
    · exact ⟨rfl, Or.inr (Or.inl ⟨rfl, rfl, by simp [remappedTable, hfds]⟩)⟩
    · rfl
    · exact ⟨hpid, rfl, rfl, Phase.Remapping, hself _, by decide⟩
    · intro _; simp
    · exact hquiet _ (by simp [writtenBytes]) (by simp [readBytes])
  · -- `Remapping`: the `run` statement
    unfold stepProc at hstep
    rw [hph] at hstep
    cases op <;> simp at hstep
    unfold stepSketch at hstep
    rw [hcode] at hstep
    simp only at hstep
    have hlogged := hI.remapLogged pid pr hpid hget (by rw [hph]; decide)
    cases henv : env (childCmd pid) with
    | none =>
      rw [henv] at hstep
      simp at hstep
      subst hstep
      apply Inv.build_kid hI hget hpid _ hmono rfl
      · refine ⟨hp, Or.inr (Or.inr (Or.inr (Or.inl ⟨rfl, rfl, ?_⟩)))⟩
        rw [hfds]
        exact ⟨rfl, fun _ => Or.inl rfl⟩
      · rfl
      · exact ⟨hpid, rfl, hfds, _, hself _, by simp [Phase.rank]⟩
      · intro _; exact List.mem_append_left _ hlogged
      · exact hquiet _ (by simp [writtenBytes]) (by simp [readBytes])
    | some err =>
      rw [henv] at hstep
      simp at hstep
      subst hstep
      apply Inv.build_kid hI hget hpid _ hmono rfl
      · exact ⟨hp, Or.inr (Or.inr (Or.inl ⟨hph, rfl, hfds⟩))⟩
      · rfl
      · exact ⟨hpid, rfl, henv, _, apply_get_self s pid _ hlt, rfl, Or.inl hph⟩
      · intro _; exact List.mem_append_left _ hlogged
      · exact hquiet _ (by simp [writtenBytes]) (by simp [readBytes])
  · -- `run` failed: the block has ended, the child ends
    have hlogged := hI.remapLogged pid pr hpid hget (by rw [hph]; decide)
    obtain ⟨-, rfl⟩ := stepProc_code_nil hcode (by rw [hph]; decide) hstep
    apply Inv.build_kid hI hget hpid _ hmono rfl
    · exact ⟨hp, Or.inr (Or.inr (Or.inr (Or.inr ⟨0, rfl, hcode, rfl⟩)))⟩
    · rfl
    · trivial
    · intro _; exact List.mem_append_left _ hlogged
    · exact hquiet _ (by simp [writtenBytes]) (by simp [readBytes])
  · -- `Executing`: the actions of the image
    have hlogged := hI.remapLogged pid pr hpid hget (by rw [hph]; simp [Phase.rank])
    unfold stepProc at hstep
    rw [hph] at hstep
    simp only at hstep
    have hsame : ChildOk t pid pr :=
      ⟨hp, Or.inr (Or.inr (Or.inr (Or.inl ⟨hph, hcode, hfds⟩)))⟩
    cases op with
    | sketch => simp [stepImage] at hstep
    | write slot bytes =>
      simp only [stepImage] at hstep
      split at hstep
      · rename_i id hslot
        split at hstep
        · rename_i buf hbuf
          simp at hstep
          subst hstep
          apply Inv.build_kid hI hget hpid _ hmono rfl hsame
          · simp
          · trivial
          · intro _; exact List.mem_append_left _ hlogged
          · intro hopen
            obtain ⟨hne1, rfl, rfl⟩ := remappedTable_get_pipeWrite hopen (hfds.get_eq hslot)
            have hpid2 : pid = 2 := by omega
            subst hpid2
            rw [writtenBytes_append, readBytes_append]
            have hfifo := hI.fifo hopen
            have hbuf' : s.pipes.getD 0 [] = buf := by
              simp [List.getD, hbuf]
            rw [hbuf'] at hfifo
            have hlt0 : 0 < s.pipes.length := by omega
            simp [writtenBytes, readBytes, hfifo, List.getD, hlt0]
        · simp at hstep
      · rename_i obj hslot
        simp at hstep
        subst hstep
        apply Inv.build_kid hI hget hpid _ hmono rfl hsame rfl
        · trivial
        · intro _; exact List.mem_append_left _ hlogged
        · intro hopen
          apply hquiet _ _ (by simp [readBytes]) hopen
          simp only [writtenBytes]
          split
          · rename_i hc
            obtain ⟨rfl, rfl⟩ := hc
            have := hfds.get_eq hslot
            rw [remappedTable_get] at this
            simp [childSlot, childEnd, pipeP, Pipe.sel] at this
          · rfl
      · simp at hstep
    | read slot n =>
      simp only [stepImage] at hstep
      cases hro : readOutcome s pr slot n with
      | data id bytes remaining =>
        rw [hro] at hstep
        simp at hstep
        subst hstep
        obtain ⟨hslot, buf, hbuf, rfl, rfl⟩ := readOutcome_data hro
        apply Inv.build_kid hI hget hpid _ hmono rfl hsame
        · simp
        · trivial
        · intro _; exact List.mem_append_left _ hlogged
        · intro hopen
          obtain ⟨rfl, rfl, rfl⟩ := remappedTable_get_pipeRead hopen (hfds.get_eq hslot)
          rw [writtenBytes_append, readBytes_append]
          have hfifo := hI.fifo hopen
          have hbuf' : s.pipes.getD 0 [] = buf := by
            simp [List.getD, hbuf]
          rw [hbuf'] at hfifo
          have hlt0 : 0 < s.pipes.length := by omega
          simp [writtenBytes, readBytes, hfifo, List.getD, hlt0]
      | endOfStream =>
        rw [hro] at hstep
        simp at hstep
        subst hstep
        obtain ⟨id, buf, hslot, hbuf, hzero⟩ := readOutcome_endOfStream hro
        apply Inv.build_kid hI hget hpid _ hmono rfl hsame rfl
        · intro hopen
          obtain ⟨-, -, rfl⟩ := remappedTable_get_pipeRead hopen (hfds.get_eq hslot)
          have hmem : Handle.pipeWrite 0 ∈ pr.fds.others := by
            rw [hfds.1, remappedTable_others, withPipe_others hopen]
            simp [pipeP]
          have := openWriteHandles_pos hget (mem_handles_of_others hmem)
          omega
        · intro _; exact List.mem_append_left _ hlogged
        · exact hquiet _ (by simp [writtenBytes]) (by simp [readBytes])
      | external =>
        rw [hro] at hstep
        simp at hstep
        subst hstep
        apply Inv.build_kid hI hget hpid _ hmono rfl hsame rfl
        · trivial
        · intro _; exact List.mem_append_left _ hlogged
        · exact hquiet _ (by simp [writtenBytes]) (by simp [readBytes])
      | blocked => rw [hro] at hstep; simp at hstep
      | invalid => rw [hro] at hstep; simp at hstep
    | close slot =>
      simp only [stepImage] at hstep
      split at hstep
      · simp at hstep
        subst hstep
        apply Inv.build_kid hI hget hpid _ hmono rfl
        · exact ⟨hp, Or.inr (Or.inr (Or.inr (Or.inl ⟨hph, hcode, hfds.close slot⟩)))⟩
        · rfl
        · trivial
        · intro _; exact List.mem_append_left _ hlogged
        · exact hquiet _ (by simp [writtenBytes]) (by simp [readBytes])
      · simp at hstep
    | exit status =>
      simp only [stepImage] at hstep
      simp at hstep
      subst hstep
      apply Inv.build_kid hI hget hpid _ hmono rfl
      · exact ⟨hp, Or.inr (Or.inr (Or.inr (Or.inr ⟨status, rfl, hcode, rfl⟩)))⟩
      · rfl
      · trivial
      · intro _; exact List.mem_append_left _ hlogged
      · exact hquiet _ (by simp [writtenBytes]) (by simp [readBytes])
  · -- `Exited`
    rw [stepProc_exited hph] at hstep
    exact absurd hstep (by simp)

/-- Every enabled action preserves the invariant. -/
theorem Inv.preserved {env : Resolution} {t : InitialTable} {s s' : Sys} {a : Action}
    (hI : Inv env t s) (h : step env a s = some s') : Inv env t s' := by
  have hmono : ∀ e, EventOk env t s e → EventOk env t s' e := fun e he => he.mono h
  obtain ⟨pr, eff, hget, hstep, rfl⟩ := step_eq_some h
  by_cases hp : a.pid = 0
  · rw [hp] at hget hstep hmono ⊢
    exact hI.step_orch hget hstep hmono
  · exact hI.step_kid (by omega) hget hstep hmono

theorem Inv.preserved_or_stay {env : Resolution} {t : InitialTable} {s : Sys} (a : Action)
    (hI : Inv env t s) : Inv env t (stepOrStay env s a) := by
  unfold Multipipe.stepOrStay
  cases h : Multipipe.step env a s with
  | none => simpa using hI
  | some s' => simpa using hI.preserved h

theorem Inv.reachable {env : Resolution} {t : InitialTable} (sched : List Action) {s : Sys}
    (hI : Inv env t s) : Inv env t (exec env sched s) := by
  induction sched generalizing s with
  | nil => exact hI
  | cons a rest ih => exact ih (hI.preserved_or_stay a)

/-- The invariant holds in every state an execution of the sketch reaches. -/
theorem inv_runSketch (env : Resolution) (t : InitialTable) (sched : List Action) :
    Inv env t (runSketch env t sched) :=
  (Inv.init env t).reachable sched

theorem getElem?_snoc_some {α : Type} {l : List α} {e x : α} {j : Nat}
    (h : (l ++ [e])[j]? = some x) :
    (j < l.length ∧ l[j]? = some x) ∨ (j = l.length ∧ x = e) := by
  rcases Nat.lt_trichotomy j l.length with hlt | heq | hgt
  · rw [List.getElem?_append_left hlt] at h
    exact Or.inl ⟨hlt, h⟩
  · subst heq
    simp at h
    exact Or.inr ⟨rfl, h.symm⟩
  · rw [List.getElem?_eq_none (by simp; omega)] at h
    exact absurd h (by simp)

theorem mem_of_getElem? {α : Type} {l : List α} {x : α} {j : Nat} (h : l[j]? = some x) :
    x ∈ l :=
  List.mem_iff_getElem?.mpr ⟨j, h⟩

theorem lt_of_getElem? {α : Type} {l : List α} {x : α} {j : Nat} (h : l[j]? = some x) :
    j < l.length :=
  (List.getElem?_eq_some_iff.mp h).1

/-- What the event of a step says about the process that took it. -/
theorem stepProc_event {env : Resolution} {s : Sys} {pid : Nat} {pr : Proc} {op : Op}
    {eff : Effect} (h : stepProc env s pid pr op = some eff) :
    (∀ c slot hd, eff.event = Event.remapped c slot hd → c = pid ∧ pr.phase.rank ≤ 1) ∧
    (∀ par c fds, eff.event = Event.duplicated par c fds → c = s.procs.length) := by
  unfold stepProc at h
  have hsk : ∀ eff', stepSketch env s pid pr = some eff' →
      (∀ c slot hd, eff'.event = Event.remapped c slot hd → c = pid) ∧
      (∀ par c fds, eff'.event = Event.duplicated par c fds → c = s.procs.length) := by
    intro eff' h'
    unfold stepSketch at h'
    split at h'
    · simp at h'; subst h'; simp
    · simp at h'; subst h'; simp
    · simp at h'; subst h'; simp
    · split at h'
      · simp at h'
      · simp at h'; subst h'; simp
    · split at h' <;> simp at h' <;> subst h' <;> simp
  have him : ∀ eff', stepImage s pid pr op = some eff' →
      (∀ c slot hd, eff'.event ≠ Event.remapped c slot hd) ∧
      (∀ par c fds, eff'.event ≠ Event.duplicated par c fds) := by
    intro eff' h'
    cases op with
    | sketch => simp [stepImage] at h'
    | write slot bytes =>
      simp only [stepImage] at h'
      split at h'
      · split at h'
        · simp at h'; subst h'; simp
        · simp at h'
      · simp at h'; subst h'; simp
      · simp at h'
    | read slot n =>
      simp only [stepImage] at h'
      split at h' <;> simp at h' <;> subst h' <;> simp
    | close slot =>
      simp only [stepImage] at h'
      split at h' <;> simp at h'
      subst h'; simp
    | exit st =>
      simp only [stepImage] at h'
      simp at h'; subst h'; simp
  cases hph : pr.phase with
  | Executing img =>
    rw [hph] at h; simp only at h
    obtain ⟨h1, h2⟩ := him eff h
    exact ⟨fun c slot hd he => absurd he (h1 c slot hd),
      fun par c fds he => absurd he (h2 par c fds)⟩
  | Exited st => rw [hph] at h; simp at h
  | Original =>
    rw [hph] at h
    cases op <;> simp at h
    obtain ⟨h1, h2⟩ := hsk eff h
    exact ⟨fun c slot hd he => ⟨h1 c slot hd he, by decide⟩, h2⟩
  | Duplicated =>
    rw [hph] at h
    cases op <;> simp at h
    obtain ⟨h1, h2⟩ := hsk eff h
    exact ⟨fun c slot hd he => ⟨h1 c slot hd he, by decide⟩, h2⟩
  | Remapping =>
    rw [hph] at h
    cases op <;> simp at h
    obtain ⟨h1, h2⟩ := hsk eff h
    exact ⟨fun c slot hd he => ⟨h1 c slot hd he, by decide⟩, h2⟩

theorem LogOrder.preserved_order {env : Resolution} {t : InitialTable} {s s' : Sys} {a : Action}
    (hI : Inv env t s) (hL : LogOrder s.log) (h : step env a s = some s') :
    LogOrder s'.log := by
  have hI' : Inv env t s' := hI.preserved h
  obtain ⟨pr, eff, hget, hstep, rfl⟩ := step_eq_some h
  obtain ⟨hev1, hev2⟩ := stepProc_event hstep
  have hnew : EventOk env t (s.apply a.pid eff) eff.event :=
    hI'.events _ (by simp [apply_log])
  refine ⟨?_, ?_, ?_, ?_⟩
  · intro j par c fds hj
    rw [apply_log] at hj
    rcases getElem?_snoc_some hj with ⟨-, hj'⟩ | ⟨rfl, he⟩
    · obtain ⟨i, hi, hget'⟩ := hL.pipeFirst j par c fds hj'
      exact ⟨i, hi, by rw [apply_log, List.getElem?_append_left (lt_of_getElem? hget')]; exact hget'⟩
    · rw [← he] at hnew
      obtain ⟨-, hc1, hc2, -⟩ := hnew
      obtain ⟨o, -, hcases⟩ := hI'.orch
      rcases hcases with ⟨-, -, -, -, -, hlen, -⟩ | ⟨k, -, -, -, -, -, hmem, -⟩
      · omega
      · rw [apply_log, List.mem_append] at hmem
        rcases hmem with hmem | hmem
        · obtain ⟨i, hi⟩ := List.mem_iff_getElem?.mp hmem
          exact ⟨i, lt_of_getElem? hi,
            by rw [apply_log, List.getElem?_append_left (lt_of_getElem? hi)]; exact hi⟩
        · rw [← he] at hmem; simp at hmem
  · intro i j c slot hd img fds hi hj
    rw [apply_log] at hi hj
    rcases getElem?_snoc_some hj with ⟨hjlt, hj'⟩ | ⟨rfl, hje⟩
    · rcases getElem?_snoc_some hi with ⟨-, hi'⟩ | ⟨rfl, hie⟩
      · exact hL.remapBeforeRun i j c slot hd img fds hi' hj'
      · obtain ⟨rfl, hrk⟩ := hev1 c slot hd hie.symm
        obtain ⟨-, -, -, ph, hph, hr2⟩ := hI.events _ (mem_of_getElem? hj')
        obtain ⟨pr', hpr', rfl⟩ := phaseOf_eq_some hph
        rw [hget] at hpr'; cases hpr'
        omega
    · rcases getElem?_snoc_some hi with ⟨hilt, -⟩ | ⟨-, hie⟩
      · exact hilt
      · rw [← hje] at hie; cases hie
  · intro j c img fds hj
    rw [apply_log] at hj
    rcases getElem?_snoc_some hj with ⟨-, hj'⟩ | ⟨rfl, he⟩
    · obtain ⟨i, hi, hget'⟩ := hL.runAfterRemap j c img fds hj'
      exact ⟨i, hi, by rw [apply_log, List.getElem?_append_left (lt_of_getElem? hget')]; exact hget'⟩
    · rw [← he] at hnew
      obtain ⟨hc1, -, -, ph, hph, hr2⟩ := hnew
      obtain ⟨pr', hpr', rfl⟩ := phaseOf_eq_some hph
      have hmem := hI'.remapLogged c pr' hc1 hpr' (by omega)
      rw [apply_log, List.mem_append] at hmem
      rcases hmem with hmem | hmem
      · obtain ⟨i, hi⟩ := List.mem_iff_getElem?.mp hmem
        exact ⟨i, lt_of_getElem? hi,
          by rw [apply_log, List.getElem?_append_left (lt_of_getElem? hi)]; exact hi⟩
      · rw [← he] at hmem; simp at hmem
  · intro i j f₁ f₂ hi hj
    rw [apply_log] at hi hj
    rcases getElem?_snoc_some hj with ⟨hjlt, hj'⟩ | ⟨rfl, hje⟩
    · rcases getElem?_snoc_some hi with ⟨-, hi'⟩ | ⟨rfl, hie⟩
      · exact hL.readerFirst i j f₁ f₂ hi' hj'
      · have hlen := hev2 0 1 f₁ hie.symm
        obtain ⟨-, -, h2, -⟩ := hI.events _ (mem_of_getElem? hj')
        omega
    · rcases getElem?_snoc_some hi with ⟨hilt, -⟩ | ⟨-, hie⟩
      · exact hilt
      · rw [← hje] at hie; cases hie

theorem LogOrder.reachable_order {env : Resolution} {t : InitialTable} (sched : List Action) {s : Sys}
    (hI : Inv env t s) (hL : LogOrder s.log) : LogOrder (exec env sched s).log := by
  induction sched generalizing s with
  | nil => exact hL
  | cons a rest ih =>
    refine ih (hI.preserved_or_stay a) ?_
    unfold Multipipe.stepOrStay
    cases h : Multipipe.step env a s with
    | none => simpa using hL
    | some s' => simpa using hL.preserved_order hI h

theorem logOrder_runSketch (env : Resolution) (t : InitialTable) (sched : List Action) :
    LogOrder (runSketch env t sched).log := by
  apply LogOrder.reachable_order sched (Inv.init env t)
  refine ⟨?_, ?_, ?_, ?_⟩ <;> intros <;> simp_all [initSys]

/-! ## Facts about reachable states used by several properties -/

theorem Inv.executed_pid {env : Resolution} {t : InitialTable} {s : Sys} (hI : Inv env t s)
    {pid : Nat} {img : Image} {fds : DescriptorTable}
    (h : Event.executed pid img fds ∈ s.log) :
    (pid = 1 ∨ pid = 2) ∧ img = ⟨childCmd pid, []⟩ ∧ fds = remappedTable t pid := by
  obtain ⟨h1, h2, h3, ph, hph, -⟩ := hI.events _ h
  obtain ⟨pr, hpr, -⟩ := phaseOf_eq_some hph
  have := lt_of_getElem? hpr
  have := hI.procs_length_le
  exact ⟨by omega, h2, h3⟩

theorem Inv.pipe_logged {env : Resolution} {t : InitialTable} {s : Sys} (hI : Inv env t s)
    (h : 1 < s.procs.length) : Event.pipeCreated 0 pipeP ∈ s.log := by
  obtain ⟨o, -, hcases⟩ := hI.orch
  rcases hcases with ⟨-, -, -, -, -, hlen, -⟩ | ⟨k, -, -, -, -, -, hmem, -⟩
  · omega
  · exact hmem

theorem Inv.lt_of_event {env : Resolution} {t : InitialTable} {s : Sys} (hI : Inv env t s)
    {pid : Nat} {img : Image} {fds : DescriptorTable}
    (h : Event.executed pid img fds ∈ s.log) : 1 < s.procs.length := by
  obtain ⟨h1, -, -, ph, hph, -⟩ := hI.events _ h
  obtain ⟨pr, hpr, -⟩ := phaseOf_eq_some hph
  have := lt_of_getElem? hpr
  omega

/-- The state after the sketch has run to completion in program order, when both
command names resolve. -/
theorem fullSchedule_log (env : Resolution) (t : InitialTable)
    (hwc : env "wc" = none) (hls : env "ls" = none) :
    (runSketch env t fullSchedule).log =
      [Event.pipeCreated 0 pipeP,
       Event.duplicated 0 1 (withPipe t),
       Event.duplicated 0 2 (withPipe t),
       Event.remapped 1 StdStream.standard_in pipeP.read,
       Event.executed 1 ⟨"wc", []⟩ (remappedTable t 1),
       Event.remapped 2 StdStream.standard_out pipeP.write,
       Event.executed 2 ⟨"ls", []⟩ (remappedTable t 2)] := by
  simp [runSketch, exec, fullSchedule, initSys, stepOrStay, step, stepProc, stepSketch,
    orchestrator, wcBlock, lsBlock, Sys.apply, createpipe, changefd, hwc, hls, Pipe.sel,
    pipeP, withPipe, remappedTable, childSlot, childEnd]

/-! ## The properties of the sketch -/

/-- C1: in every execution of the sketch, from any initial descriptor table, a command
image that starts executing is `wc` in the first child or `ls` in the second; at the
moment `wc` starts its standard-input slot is bound to the read end of `p`, at the
moment `ls` starts its standard-output slot is bound to the write end of the same `p`,
and `p` is the pipe the orchestrator created. Run to completion, the sequence does
start both images, with these bindings. -/
theorem C1_images_start_bound_to_pipe (env : Resolution) (t : InitialTable)
    (sched : List Action) :
    (∀ (pid : Nat) (img : Image) (fds : DescriptorTable),
      Event.executed pid img fds ∈ (runSketch env t sched).log →
        Event.pipeCreated 0 pipeP ∈ (runSketch env t sched).log ∧
        ((pid = 1 ∧ img = ⟨"wc", []⟩ ∧ fds.get StdStream.standard_in = some pipeP.read) ∨
         (pid = 2 ∧ img = ⟨"ls", []⟩ ∧
            fds.get StdStream.standard_out = some pipeP.write))) ∧
    (∃ fds₁ fds₂ : DescriptorTable,
      Event.executed 1 ⟨"wc", []⟩ fds₁ ∈ (runSketch allResolve t fullSchedule).log ∧
      Event.executed 2 ⟨"ls", []⟩ fds₂ ∈ (runSketch allResolve t fullSchedule).log ∧
      (runSketch allResolve t fullSchedule).fdsOf 1 = some fds₁ ∧
      (runSketch allResolve t fullSchedule).fdsOf 2 = some fds₂ ∧
      fds₁.standard_in = some pipeP.read ∧ fds₂.standard_out = some pipeP.write) := by
  have hI := inv_runSketch env t sched
  refine ⟨?_, ?_⟩
  · intro pid img fds h
    obtain ⟨hpid, himg, hfds⟩ := hI.executed_pid h
    refine ⟨hI.pipe_logged (hI.lt_of_event h), ?_⟩
    subst himg hfds
    rcases hpid with rfl | rfl
    · exact Or.inl ⟨rfl, rfl, by simp [remappedTable_get, childSlot, childEnd, Pipe.sel]⟩
    · exact Or.inr ⟨rfl, rfl, by simp [remappedTable_get, childSlot, childEnd, Pipe.sel]⟩
  · refine ⟨remappedTable t 1, remappedTable t 2, ?_, ?_, ?_, ?_, ?_, ?_⟩
    · rw [fullSchedule_log allResolve t rfl rfl]; simp
    · rw [fullSchedule_log allResolve t rfl rfl]; simp
    · simp [runSketch, exec, fullSchedule, initSys, stepOrStay, step, stepProc, stepSketch,
        orchestrator, wcBlock, lsBlock, Sys.apply, createpipe, changefd, Pipe.sel, allResolve,
        pipeP, withPipe, remappedTable, childSlot, childEnd, Sys.fdsOf]
    · simp [runSketch, exec, fullSchedule, initSys, stepOrStay, step, stepProc, stepSketch,
        orchestrator, wcBlock, lsBlock, Sys.apply, createpipe, changefd, Pipe.sel, allResolve,
        pipeP, withPipe, remappedTable, childSlot, childEnd, Sys.fdsOf]
    · simp [remappedTable, changefd, DescriptorTable.set, childSlot, childEnd, Pipe.sel]
    · simp [remappedTable, changefd, DescriptorTable.set, childSlot, childEnd, Pipe.sel]

theorem C1_images_start_bound_to_pipe_witness :
    Event.pipeCreated 0 pipeP ∈ (runSketch allResolve tty fullSchedule).log ∧
      ((1 = 1 ∧ (⟨"wc", []⟩ : Image) = ⟨"wc", []⟩ ∧
          (remappedTable tty 1).get StdStream.standard_in = some pipeP.read) ∨
       (1 = 2 ∧ (⟨"wc", []⟩ : Image) = ⟨"ls", []⟩ ∧
          (remappedTable tty 1).get StdStream.standard_out = some pipeP.write)) :=
  (C1_images_start_bound_to_pipe allResolve tty fullSchedule).1 1 ⟨"wc", []⟩
    (remappedTable tty 1) (by decide)

/-- A step moves a child at most one state forward. -/
theorem Inv.kid_one_state {env : Resolution} {t : InitialTable} {s : Sys} {op : Op} {pid : Nat}
    {pr : Proc} {eff : Effect} (hI : Inv env t s) (hpid : 1 ≤ pid)
    (hget : s.procs[pid]? = some pr) (hstep : stepProc env s pid pr op = some eff) :
    eff.proc.phase.rank ≤ pr.phase.rank + 1 := by
  have h2 : ∀ ph : Phase, ph.rank ≤ 2 := by intro ph; cases ph <;> simp [Phase.rank]
  obtain ⟨hp, hk⟩ := hI.kids pid pr hpid hget
  rcases hk with ⟨hph, hcode, hfds⟩ | ⟨hph, hcode, hfds⟩ | ⟨hph, hcode, hfds⟩ |
    ⟨hph, hcode, hfds⟩ | ⟨st, hph, hcode, hfds⟩
  · unfold stepProc at hstep
    rw [hph] at hstep
    cases op <;> simp at hstep
    unfold stepSketch at hstep
    rw [hcode, childBlock_eq, hp] at hstep
    simp at hstep
    subst hstep
    rw [hph]; simp [Phase.rank]
  · have := h2 eff.proc.phase
    rw [hph]
    show eff.proc.phase.rank ≤ 1 + 1
    omega
  · have := h2 eff.proc.phase
    rw [hph]
    show eff.proc.phase.rank ≤ 1 + 1
    omega
  · have := h2 eff.proc.phase
    rw [hph]
    show eff.proc.phase.rank ≤ 2 + 1
    omega
  · rw [stepProc_exited hph] at hstep
    exact absurd hstep (by simp)

/-- What a step that creates a process gives the new process. -/
theorem stepProc_spawn {env : Resolution} {s : Sys} {pid : Nat} {pr : Proc} {op : Op}
    {eff : Effect} {kid : Proc} (h : stepProc env s pid pr op = some eff)
    (hk : eff.spawn = some kid) :
    kid.phase = Phase.Duplicated ∧ kid.fds = pr.fds ∧ kid.p = pr.p ∧
      eff.event = Event.duplicated pid s.procs.length pr.fds := by
  unfold stepProc at h
  have hsk : ∀ eff', stepSketch env s pid pr = some eff' → eff'.spawn = some kid →
      kid.phase = Phase.Duplicated ∧ kid.fds = pr.fds ∧ kid.p = pr.p ∧
        eff'.event = Event.duplicated pid s.procs.length pr.fds := by
    intro eff' h' hk'
    unfold stepSketch at h'
    split at h'
    · simp at h'; subst h'; simp at hk'
    · simp at h'; subst h'; simp at hk'
    · simp at h'; subst h'; simp at hk'; subst hk'; simp
    · split at h'
      · simp at h'
      · simp at h'; subst h'; simp at hk'
    · split at h' <;> simp at h' <;> subst h' <;> simp at hk'
  have him : ∀ eff', stepImage s pid pr op = some eff' → eff'.spawn = none := by
    intro eff' h'
    cases op with
    | sketch => simp [stepImage] at h'
    | write slot bytes =>
      simp only [stepImage] at h'
      split at h'
      · split at h'
        · simp at h'; subst h'; rfl
        · simp at h'
      · simp at h'; subst h'; rfl
      · simp at h'
    | read slot n =>
      simp only [stepImage] at h'
      split at h' <;> simp at h' <;> subst h' <;> rfl
    | close slot =>
      simp only [stepImage] at h'
      split at h' <;> simp at h'
      subst h'; rfl
    | exit st =>
      simp only [stepImage] at h'
      simp at h'; subst h'; rfl
  cases hph : pr.phase with
  | Executing img =>
    rw [hph] at h; simp only at h
    rw [him eff h] at hk
    exact absurd hk (by simp)
  | Exited st => rw [hph] at h; simp at h
  | Original =>
    rw [hph] at h
    cases op <;> simp at h
    exact hsk eff h hk
  | Duplicated =>
    rw [hph] at h
    cases op <;> simp at h
    exact hsk eff h hk
  | Remapping =>
    rw [hph] at h
    cases op <;> simp at h
    exact hsk eff h hk

/-- C2 (as amended): in every execution of the sketch the only images are `wc` (first
child) and `ls` (second child); and, the three standard slots being open when the
sketch starts, the
bytes `ls` has written to its standard-output are exactly the bytes `wc` has read from
its standard-input followed by the bytes still buffered in `p`: what `wc` reads is a
prefix of what `ls` wrote, in the same order, and equals it once the buffer is
drained. -/
theorem C2_reader_sees_writer_bytes_in_order (env : Resolution) (t : InitialTable)
    (sched : List Action) :
    (∀ (pid : Nat) (img : Image) (fds : DescriptorTable),
      Event.executed pid img fds ∈ (runSketch env t sched).log →
        (pid = 1 ∧ img.name = "wc") ∨ (pid = 2 ∧ img.name = "ls")) ∧
    (t.standardOpen →
      writtenBytes 2 StdStream.standard_out (runSketch env t sched).log =
        readBytes 1 StdStream.standard_in (runSketch env t sched).log ++
          (runSketch env t sched).pipes.getD 0 [] ∧
      readBytes 1 StdStream.standard_in (runSketch env t sched).log <+:
        writtenBytes 2 StdStream.standard_out (runSketch env t sched).log ∧
      ((runSketch env t sched).pipes.getD 0 [] = [] →
        readBytes 1 StdStream.standard_in (runSketch env t sched).log =
          writtenBytes 2 StdStream.standard_out (runSketch env t sched).log)) := by
  have hI := inv_runSketch env t sched
  refine ⟨?_, fun hopen => ⟨hI.fifo hopen, ?_, ?_⟩⟩
  · intro pid img fds h
    obtain ⟨hpid, himg, -⟩ := hI.executed_pid h
    subst himg
    rcases hpid with rfl | rfl
    · exact Or.inl ⟨rfl, rfl⟩
    · exact Or.inr ⟨rfl, rfl⟩
  · rw [hI.fifo hopen]; exact List.prefix_append _ _
  · intro hnil
    rw [hI.fifo hopen, hnil, List.append_nil]

theorem C2_reader_sees_writer_bytes_in_order_witness :
    readBytes 1 StdStream.standard_in (runSketch allResolve tty pipedRun).log = [108, 115, 10] ∧
    readBytes 1 StdStream.standard_in (runSketch allResolve tty pipedRun).log =
      writtenBytes 2 StdStream.standard_out (runSketch allResolve tty pipedRun).log ∧
    ((1 = 1 ∧ (⟨"wc", []⟩ : Image).name = "wc") ∨ (1 = 2 ∧ (⟨"wc", []⟩ : Image).name = "ls")) :=
  ⟨by decide,
   ((C2_reader_sees_writer_bytes_in_order allResolve tty pipedRun).2 ⟨rfl, rfl, rfl⟩).2.2
     (by decide),
   (C2_reader_sees_writer_bytes_in_order allResolve tty pipedRun).1 1 ⟨"wc", []⟩
     (remappedTable tty 1) (by decide)⟩

/-- C2, counterexample to the claim as stated. With standard-output and standard-error
closed at the start, the read end of `p` takes slot standard-output and the write end
slot standard-error; `ls` remaps its standard-output to the write end and still has
the write end as its standard-error. A byte `ls` writes to its standard-error goes
into `p`, and `wc` reads from its standard-input a byte that `ls` never wrote to its
standard-output: what `wc` read is not a prefix of what `ls` wrote there. -/
theorem C2_counterexample :
    (remappedTable outputsClosed 2).standard_error = some pipeP.write ∧
    (runSketch allResolve outputsClosed strayErrorRun).fdsOf 2 =
      some (remappedTable outputsClosed 2) ∧
    writtenBytes 2 StdStream.standard_out
      (runSketch allResolve outputsClosed strayErrorRun).log = [] ∧
    readBytes 1 StdStream.standard_in
      (runSketch allResolve outputsClosed strayErrorRun).log = [69] ∧
    ¬ (readBytes 1 StdStream.standard_in
        (runSketch allResolve outputsClosed strayErrorRun).log <+:
      writtenBytes 2 StdStream.standard_out
        (runSketch allResolve outputsClosed strayErrorRun).log) := by
  have h1 : writtenBytes 2 StdStream.standard_out
      (runSketch allResolve outputsClosed strayErrorRun).log = [] := by decide
  have h2 : readBytes 1 StdStream.standard_in
      (runSketch allResolve outputsClosed strayErrorRun).log = [69] := by decide
  refine ⟨by decide, by decide, h1, h2, ?_⟩
  rw [h1, h2]
  simp

/-- C3: in every execution of the sketch, each process duplication is preceded by the
creation of the pipe `p` by the orchestrator, the only pipe ever created. At the
moment of duplication the new process is a child of the orchestrator whose own
descriptor table is the orchestrator's table after `createpipe` (the table the
duplication event records), which holds the read end and the write end of `p`, and
whose variable `p` is that pipe, which exists; and a child that has not yet taken a
step still has exactly that. Run by the orchestrator alone, the sequence creates the
pipe and then the two duplicates, each with that table. -/
theorem C3_pipe_created_before_duplications (env : Resolution) (t : InitialTable)
    (sched : List Action) :
    (∀ (j par c : Nat) (fds : DescriptorTable),
      (runSketch env t sched).log[j]? = some (Event.duplicated par c fds) →
        (∃ i, i < j ∧ (runSketch env t sched).log[i]? = some (Event.pipeCreated 0 pipeP)) ∧
        par = 0 ∧ fds = withPipe t ∧ pipeP.read ∈ fds.handles ∧ pipeP.write ∈ fds.handles) ∧
    (∀ (a : Action) (s' : Sys), step env a (runSketch env t sched) = some s' →
      ∀ (c : Nat) (pr : Proc), (runSketch env t sched).procs.length ≤ c →
        s'.procs[c]? = some pr →
          (c = 1 ∨ c = 2) ∧ pr.phase = Phase.Duplicated ∧ pr.p = some pipeP ∧
          pr.fds = withPipe t ∧ pipeP.read ∈ pr.fds.handles ∧ pipeP.write ∈ pr.fds.handles ∧
          (runSketch env t sched).pipes.length = 1 ∧
          Event.pipeCreated 0 pipeP ∈ (runSketch env t sched).log ∧
          s'.log = (runSketch env t sched).log ++ [Event.duplicated 0 c pr.fds]) ∧
    (∀ (c : Nat) (pr : Proc), 1 ≤ c → (runSketch env t sched).procs[c]? = some pr →
      pr.phase = Phase.Duplicated →
        pr.p = some pipeP ∧ pr.fds = withPipe t ∧ pipeP.read ∈ pr.fds.handles ∧
        pipeP.write ∈ pr.fds.handles ∧ (runSketch env t sched).pipes.length = 1) ∧
    (∀ (pid : Nat) (q : Pipe), Event.pipeCreated pid q ∈ (runSketch env t sched).log →
        pid = 0 ∧ q = pipeP) ∧
    (runSketch env t sched).pipes.length ≤ 1 ∧
    ((runSketch env t orchestratorOnly).log =
      [Event.pipeCreated 0 pipeP, Event.duplicated 0 1 (withPipe t),
       Event.duplicated 0 2 (withPipe t)] ∧
     (runSketch env t orchestratorOnly).fdsOf 1 = some (withPipe t) ∧
     (runSketch env t orchestratorOnly).fdsOf 2 = some (withPipe t) ∧
     (runSketch env t orchestratorOnly).pipes = [[]]) := by
  have hI := inv_runSketch env t sched
  have hL := logOrder_runSketch env t sched
  refine ⟨?_, ?_, ?_, ?_, hI.pipes_length_le, ?_⟩
  · intro j par c fds hj
    obtain ⟨hpar, -, -, hfds⟩ := hI.events _ (mem_of_getElem? hj)
    subst hfds
    exact ⟨hL.pipeFirst j par c _ hj, hpar, rfl, withPipe_handles t⟩
  · intro a s' hstep c pr hc hget
    have hI' := hI.preserved hstep
    obtain ⟨pr0, eff, hget0, hsp, rfl⟩ := step_eq_some hstep
    have hlt0 := lt_of_getElem? hget0
    have hlt' := lt_of_getElem? hget
    rw [apply_length] at hlt'
    have hspawn : eff.spawn = some pr ∧ c = (runSketch env t sched).procs.length := by
      cases hs : eff.spawn with
      | none => rw [hs] at hlt'; simp at hlt'; omega
      | some kid =>
        rw [hs] at hlt'
        simp at hlt'
        have hceq : c = (runSketch env t sched).procs.length := by omega
        subst hceq
        rw [apply_get_new, hs] at hget
        exact ⟨hget, rfl⟩
    obtain ⟨hkid, hceq⟩ := hspawn
    obtain ⟨hph, hfds, -, hev⟩ := stepProc_spawn hsp hkid
    have hc1 : 1 ≤ c := by omega
    have hlen3 := hI'.procs_length_le
    rw [apply_length, hkid] at hlen3
    simp at hlen3
    obtain ⟨hp, hk⟩ := hI'.kids c pr hc1 hget
    have hfds' : pr.fds = withPipe t := by
      rcases hk with ⟨-, -, hf⟩ | ⟨h, -, -⟩ | ⟨h, -, -⟩ | ⟨h, -, -⟩ | ⟨st, h, -, -⟩
      · exact hf
      all_goals (rw [h] at hph; cases hph)
    have hnew : EventOk env t ((runSketch env t sched).apply a.pid eff) eff.event :=
      hI'.events _ (by simp [apply_log])
    rw [hev] at hnew
    obtain ⟨hpar, -, -, -⟩ := hnew
    have hlen1 : 1 < (runSketch env t sched).procs.length ∨
        (runSketch env t sched).procs.length = 1 := by omega
    have hpipes : (runSketch env t sched).pipes.length = 1 ∧
        Event.pipeCreated 0 pipeP ∈ (runSketch env t sched).log := by
      have h1 := hI'.pipes_length (by rw [apply_length, hkid]; simp; omega)
      have h2 := hI'.pipe_logged (by rw [apply_length, hkid]; simp; omega)
      simp only [apply_log, List.mem_append, List.mem_singleton, hev] at h2
      rcases h2 with h2 | h2
      · refine ⟨?_, h2⟩
        obtain ⟨o, -, hcases⟩ := hI.orch
        rcases hcases with ⟨-, -, -, -, -, -, hlog⟩ | ⟨k, -, -, -, hp1, -, -, -⟩
        · rw [hlog] at h2; simp at h2
        · exact hp1
      · cases h2
    refine ⟨by omega, hph, hp, hfds', ?_, ?_, hpipes.1, hpipes.2, ?_⟩
    · rw [hfds']; exact (withPipe_handles t).1
    · rw [hfds']; exact (withPipe_handles t).2
    · rw [apply_log, hev, hpar, hceq, hfds]
  · intro c pr hc hget hph
    obtain ⟨hp, hk⟩ := hI.kids c pr hc hget
    have hfds' : pr.fds = withPipe t := by
      rcases hk with ⟨-, -, hf⟩ | ⟨h, -, -⟩ | ⟨h, -, -⟩ | ⟨h, -, -⟩ | ⟨st, h, -, -⟩
      · exact hf
      all_goals (rw [h] at hph; cases hph)
    have := lt_of_getElem? hget
    refine ⟨hp, hfds', ?_, ?_, hI.pipes_length (by omega)⟩
    · rw [hfds']; exact (withPipe_handles t).1
    · rw [hfds']; exact (withPipe_handles t).2
  · intro pid q h
    exact hI.events _ h
  · simp [runSketch, exec, orchestratorOnly, initSys, stepOrStay, step, stepProc, stepSketch,
      orchestrator, Sys.apply, createpipe, pipeP, withPipe, Sys.fdsOf]

theorem C3_pipe_created_before_duplications_witness :
    ((∃ i, i < 2 ∧ (runSketch allResolve tty fullSchedule).log[i]? =
        some (Event.pipeCreated 0 pipeP)) ∧
      0 = 0 ∧ withPipe tty = withPipe tty ∧ pipeP.read ∈ (withPipe tty).handles ∧
      pipeP.write ∈ (withPipe tty).handles) ∧
    ((2 = 1 ∨ 2 = 2) ∧
      ({ fds := withPipe tty, p := some pipeP, code := lsBlock,
         phase := Phase.Duplicated } : Proc).phase = Phase.Duplicated) ∧
    (({ fds := withPipe stdoutClosed, p := some pipeP, code := wcBlock,
        phase := Phase.Duplicated } : Proc).p = some pipeP ∧
      pipeP.read ∈ (withPipe stdoutClosed).handles) :=
  ⟨(C3_pipe_created_before_duplications allResolve tty fullSchedule).1 2 0 2 (withPipe tty)
      (by decide),
   let h := (C3_pipe_created_before_duplications allResolve tty
      [⟨0, Op.sketch⟩, ⟨0, Op.sketch⟩]).2.1 ⟨0, Op.sketch⟩
      (runSketch allResolve tty orchestratorOnly) rfl 2
      { fds := withPipe tty, p := some pipeP, code := lsBlock, phase := Phase.Duplicated }
      (by decide) rfl
   ⟨h.1, h.2.1⟩,
   let h := (C3_pipe_created_before_duplications allResolve stdoutClosed
      orchestratorOnly).2.2.1 1
      { fds := withPipe stdoutClosed, p := some pipeP, code := wcBlock,
        phase := Phase.Duplicated } (by decide) rfl rfl
   ⟨h.1, h.2.2.1⟩⟩


/-- C4: in every execution of the sketch each child goes through
`Duplicated`, `Remapping`, `Executing`: a `changefd` of a child is logged before the
start of its image and never after it; the start of an image is preceded by the
`changefd` of the same child; a step never lowers a phase, moves a child at most one
state forward (from `Duplicated` to `Remapping`, from `Remapping` out of the sketch,
as an image or, when its `run` failed, as a process that has ended), and never takes
a process back to `Duplicated`; a child is only
ever in one of the states of the machine; and a process that has exited stays
exited, with its status. -/
theorem C4_child_state_machine (env : Resolution) (t : InitialTable) (sched : List Action) :
    (∀ (i j c : Nat) (slot : StdStream) (hd : Handle) (img : Image) (fds : DescriptorTable),
      (runSketch env t sched).log[i]? = some (Event.remapped c slot hd) →
      (runSketch env t sched).log[j]? = some (Event.executed c img fds) → i < j) ∧
    (∀ (j c : Nat) (img : Image) (fds : DescriptorTable),
      (runSketch env t sched).log[j]? = some (Event.executed c img fds) →
      ∃ i slot hd, i < j ∧
        (runSketch env t sched).log[i]? = some (Event.remapped c slot hd)) ∧
    (∀ (a : Action) (s' : Sys), step env a (runSketch env t sched) = some s' →
      ∀ (c : Nat) (ph ph' : Phase), 1 ≤ c → (runSketch env t sched).phaseOf c = some ph →
        s'.phaseOf c = some ph' →
        ph.rank ≤ ph'.rank ∧ ph'.rank ≤ ph.rank + 1 ∧
          (ph' = Phase.Duplicated → ph = Phase.Duplicated)) ∧
    (∀ (c : Nat) (ph : Phase), 1 ≤ c → (runSketch env t sched).phaseOf c = some ph →
      ph = Phase.Duplicated ∨ ph = Phase.Remapping ∨
        ph = Phase.Executing ⟨childCmd c, []⟩ ∨ ∃ st, ph = Phase.Exited st) ∧
    (∀ (a : Action) (s' : Sys), step env a (runSketch env t sched) = some s' →
      ∀ (c st : Nat), (runSketch env t sched).phaseOf c = some (Phase.Exited st) →
        s'.phaseOf c = some (Phase.Exited st)) := by
  have hI := inv_runSketch env t sched
  have hL := logOrder_runSketch env t sched
  refine ⟨hL.remapBeforeRun, ?_, ?_, ?_, ?_⟩
  · intro j c img fds hj
    obtain ⟨i, hi, hget⟩ := hL.runAfterRemap j c img fds hj
    exact ⟨i, _, _, hi, hget⟩
  · intro a s' hstep c ph ph' hc hph hph'
    obtain ⟨pr, hpr, rfl⟩ := phaseOf_eq_some hph
    obtain ⟨pr', hpr', rfl⟩ := phaseOf_eq_some hph'
    obtain ⟨-, hmono⟩ := step_mono hstep
    obtain ⟨pr'', hpr'', h1, h2, -, -⟩ := hmono c pr hpr
    rw [hpr'] at hpr''; cases hpr''
    refine ⟨h1, ?_, h2⟩
    obtain ⟨pr0, eff, hget, hsp, rfl⟩ := step_eq_some hstep
    by_cases hcp : c = a.pid
    · subst hcp
      rw [hget] at hpr; cases hpr
      rw [apply_get_self _ _ _ (lt_of_getElem? hget)] at hpr'
      cases hpr'
      exact hI.kid_one_state hc hget hsp
    · rw [apply_get_other _ _ _ _ hcp (lt_of_getElem? hpr), hpr] at hpr'
      cases hpr'
      omega
  · intro c ph hc hph
    obtain ⟨pr, hpr, rfl⟩ := phaseOf_eq_some hph
    obtain ⟨-, hk⟩ := hI.kids c pr hc hpr
    rcases hk with ⟨h, -, -⟩ | ⟨h, -, -⟩ | ⟨h, -, -⟩ | ⟨h, -, -⟩ | ⟨st, h, -, -⟩
    · exact Or.inl h
    · exact Or.inr (Or.inl h)
    · exact Or.inr (Or.inl h)
    · exact Or.inr (Or.inr (Or.inl h))
    · exact Or.inr (Or.inr (Or.inr ⟨st, h⟩))
  · intro a s' hstep c st hph
    obtain ⟨pr, hpr, hph'⟩ := phaseOf_eq_some hph
    obtain ⟨-, hmono⟩ := step_mono hstep
    obtain ⟨pr', hpr', -, -, -, hsame⟩ := hmono c pr hpr
    have : pr' = pr := hsame st hph'
    subst this
    rw [phaseOf_of_get hpr', hph']

theorem C4_child_state_machine_witness :
    3 < 4 ∧
    (∃ i slot hd, i < 4 ∧ (runSketch allResolve tty fullSchedule).log[i]? =
      some (Event.remapped 1 slot hd)) ∧
    (Phase.Executing ⟨"wc", []⟩ = Phase.Duplicated ∨
      Phase.Executing ⟨"wc", []⟩ = Phase.Remapping ∨
      Phase.Executing ⟨"wc", []⟩ = Phase.Executing ⟨childCmd 1, []⟩ ∨
      ∃ st, Phase.Executing ⟨"wc", []⟩ = Phase.Exited st) ∧
    (Phase.Duplicated.rank ≤ Phase.Remapping.rank ∧
      Phase.Remapping.rank ≤ Phase.Duplicated.rank + 1 ∧
      (Phase.Remapping = Phase.Duplicated → Phase.Duplicated = Phase.Duplicated)) ∧
    (runSketch allResolve tty
      (silentWriterRun ++ [⟨1, Op.close StdStream.standard_out⟩])).phaseOf 2 =
        some (Phase.Exited 0) :=
  ⟨(C4_child_state_machine allResolve tty fullSchedule).1 3 4 1 StdStream.standard_in
      pipeP.read ⟨"wc", []⟩ (remappedTable tty 1) (by decide) (by decide),
   (C4_child_state_machine allResolve tty fullSchedule).2.1 4 1 ⟨"wc", []⟩
      (remappedTable tty 1) (by decide),
   (C4_child_state_machine allResolve tty fullSchedule).2.2.2.1 1
      (Phase.Executing ⟨"wc", []⟩) (by decide) (by decide),
   (C4_child_state_machine allResolve tty
      [⟨0, Op.sketch⟩, ⟨0, Op.sketch⟩, ⟨0, Op.sketch⟩]).2.2.1 ⟨1, Op.sketch⟩
    (runSketch allResolve tty [⟨0, Op.sketch⟩, ⟨0, Op.sketch⟩, ⟨0, Op.sketch⟩, ⟨1, Op.sketch⟩])
    rfl 1 Phase.Duplicated Phase.Remapping (by decide) (by decide) (by decide),
   (C4_child_state_machine allResolve tty silentWriterRun).2.2.2.2
    ⟨1, Op.close StdStream.standard_out⟩
    (runSketch allResolve tty
      (silentWriterRun ++ [(⟨1, Op.close StdStream.standard_out⟩ : Action)]))
    rfl 2 0 (by decide)⟩

/-- The two children after the sketch has run to completion in program order, whatever
the resolution of the two command names. -/
theorem fullSchedule_kid (env : Resolution) (t : InitialTable) (c : Nat) (hc : c = 1 ∨ c = 2) :
    (runSketch env t fullSchedule).fdsOf c = some (remappedTable t c) ∧
    (env (childCmd c) = none →
      (runSketch env t fullSchedule).phaseOf c = some (Phase.Executing ⟨childCmd c, []⟩)) ∧
    (∀ err, env (childCmd c) = some err →
      (runSketch env t fullSchedule).phaseOf c = some Phase.Remapping ∧
      Event.execFailed c (childCmd c) err ∈ (runSketch env t fullSchedule).log) := by
  rcases hc with rfl | rfl <;> cases h1 : env "wc" <;> cases h2 : env "ls" <;>
    simp [runSketch, exec, fullSchedule, initSys, stepOrStay, step, stepProc, stepSketch,
      orchestrator, wcBlock, lsBlock, Sys.apply, createpipe, changefd, h1, h2, Pipe.sel,
      pipeP, withPipe, remappedTable, childSlot, childEnd, childCmd, Sys.fdsOf, Sys.phaseOf]

/-- The orchestrator after the sketch has run to completion in program order. -/
theorem fullSchedule_orch (env : Resolution) (t : InitialTable) :
    (runSketch env t fullSchedule).fdsOf 0 = some (withPipe t) ∧
    (runSketch env t fullSchedule).phaseOf 0 = some Phase.Original ∧
    (runSketch env t fullSchedule).procs.length = 3 := by
  cases h1 : env "wc" <;> cases h2 : env "ls" <;>
    simp [runSketch, exec, fullSchedule, initSys, stepOrStay, step, stepProc, stepSketch,
      orchestrator, wcBlock, lsBlock, Sys.apply, createpipe, changefd, h1, h2, Pipe.sel,
      pipeP, withPipe, Sys.fdsOf, Sys.phaseOf]

theorem step_sketch_none_of_rank {env : Resolution} {s : Sys} {pid : Nat} {ph : Phase}
    (hph : s.phaseOf pid = some ph) (hr : 2 ≤ ph.rank) :
    step env ⟨pid, Op.sketch⟩ s = none := by
  obtain ⟨pr, hpr, rfl⟩ := phaseOf_eq_some hph
  unfold step
  simp only [hpr]
  unfold stepProc
  cases h : pr.phase with
  | Executing img => simp [stepImage]
  | Exited st => simp
  | Original => rw [h] at hr; simp [Phase.rank] at hr
  | Duplicated => rw [h] at hr; simp [Phase.rank] at hr
  | Remapping => rw [h] at hr; simp [Phase.rank] at hr

theorem Inv.code_run {env : Resolution} {t : InitialTable} {s : Sys} (hI : Inv env t s)
    {pid : Nat} {pr : Proc} {cmd : String} {rest : List Stmt}
    (hget : s.procs[pid]? = some pr) (hcode : pr.code = Stmt.run cmd :: rest) :
    1 ≤ pid ∧ pr.phase = Phase.Remapping ∧ cmd = childCmd pid ∧ rest = [] := by
  by_cases hp : pid = 0
  · subst hp
    obtain ⟨o, ho, hcases⟩ := hI.orch
    rw [hget] at ho; cases ho
    rcases hcases with ⟨-, hc, -⟩ | ⟨k, hk1, hk3, -, -, -, -, ⟨-, hc, -⟩ | ⟨-, -, hc, -⟩⟩
    · rw [hc] at hcode; simp [orchestrator] at hcode
    · have hk : k = 1 ∨ k = 2 ∨ k = 3 := by omega
      rcases hk with rfl | rfl | rfl <;> rw [hc] at hcode <;> simp [orchestrator] at hcode
    · rw [hc] at hcode; simp at hcode
  · obtain ⟨-, hk⟩ := hI.kids pid pr (by omega) hget
    rcases hk with ⟨-, hc, -⟩ | ⟨hph, hc, -⟩ | ⟨-, hc, -⟩ | ⟨-, hc, -⟩ | ⟨st, -, hc, -⟩
    · rw [hc, childBlock_eq] at hcode; simp at hcode
    · rw [hc] at hcode
      simp at hcode
      exact ⟨by omega, hph, hcode.1.symm, hcode.2⟩
    · rw [hc] at hcode; simp at hcode
    · rw [hc] at hcode; simp at hcode
    · rw [hc] at hcode; simp at hcode

/-- C6: in every execution of the sketch, a process that has become a command image (or
has exited) can take no further step of the sketch, has none of the sketch left to
run, and its image was started with no argument beyond the command name; a `run`
whose name resolves turns the process into that image with the descriptor table it had
immediately before, creates no process and leaves nothing to return to; only the
orchestrator ever duplicates, so at most two children exist, and exactly two once the
sequence has run to completion. -/
theorem C6_run_never_returns (env : Resolution) (t : InitialTable) (sched : List Action) :
    (∀ (pid : Nat) (ph : Phase), (runSketch env t sched).phaseOf pid = some ph → 2 ≤ ph.rank →
      step env ⟨pid, Op.sketch⟩ (runSketch env t sched) = none ∧
      ∃ pr, (runSketch env t sched).procs[pid]? = some pr ∧ pr.code = []) ∧
    (∀ (pid : Nat) (img : Image),
      (runSketch env t sched).phaseOf pid = some (Phase.Executing img) → img.args = []) ∧
    (∀ (pid : Nat) (pr : Proc) (cmd : String) (rest : List Stmt),
      (runSketch env t sched).procs[pid]? = some pr → pr.code = Stmt.run cmd :: rest →
      env cmd = none →
        (stepOrStay env (runSketch env t sched) ⟨pid, Op.sketch⟩).phaseOf pid =
          some (Phase.Executing ⟨cmd, []⟩) ∧
        (stepOrStay env (runSketch env t sched) ⟨pid, Op.sketch⟩).fdsOf pid = some pr.fds ∧
        (stepOrStay env (runSketch env t sched) ⟨pid, Op.sketch⟩).procs.length =
          (runSketch env t sched).procs.length ∧
        (stepOrStay env (runSketch env t sched) ⟨pid, Op.sketch⟩).log =
          (runSketch env t sched).log ++ [Event.executed pid ⟨cmd, []⟩ pr.fds]) ∧
    (∀ (par c : Nat) (fds : DescriptorTable),
      Event.duplicated par c fds ∈ (runSketch env t sched).log → par = 0 ∧ (c = 1 ∨ c = 2)) ∧
    (runSketch env t sched).procs.length ≤ 3 ∧
    (runSketch env t fullSchedule).procs.length = 3 := by
  have hI := inv_runSketch env t sched
  refine ⟨?_, ?_, ?_, ?_, hI.procs_length_le, (fullSchedule_orch env t).2.2⟩
  · intro pid ph hph hr
    refine ⟨step_sketch_none_of_rank hph hr, ?_⟩
    obtain ⟨pr, hpr, rfl⟩ := phaseOf_eq_some hph
    refine ⟨pr, hpr, ?_⟩
    by_cases hp : pid = 0
    · subst hp
      obtain ⟨o, ho, hcases⟩ := hI.orch
      rw [hpr] at ho; cases ho
      rcases hcases with ⟨hph0, -⟩ | ⟨k, -, -, -, -, -, -, ⟨hph0, -, -⟩ | ⟨-, -, hc, -⟩⟩
      · rw [hph0] at hr; simp [Phase.rank] at hr
      · rw [hph0] at hr; simp [Phase.rank] at hr
      · exact hc
    · obtain ⟨-, hk⟩ := hI.kids pid pr (by omega) hpr
      rcases hk with ⟨h, -, -⟩ | ⟨h, -, -⟩ | ⟨h, -, -⟩ | ⟨-, hc, -⟩ | ⟨st, -, hc, -⟩
      · rw [h] at hr; simp [Phase.rank] at hr
      · rw [h] at hr; simp [Phase.rank] at hr
      · rw [h] at hr; simp [Phase.rank] at hr
      · exact hc
      · exact hc
  · intro pid img hph
    obtain ⟨pr, hpr, hph'⟩ := phaseOf_eq_some hph
    by_cases hp : pid = 0
    · subst hp
      obtain ⟨o, ho, hcases⟩ := hI.orch
      rw [hpr] at ho; cases ho
      rcases hcases with ⟨hph0, -⟩ | ⟨k, -, -, -, -, -, -, ⟨hph0, -, -⟩ | ⟨-, hph0, -, -⟩⟩ <;>
        rw [hph0] at hph' <;> cases hph'
    · obtain ⟨-, hk⟩ := hI.kids pid pr (by omega) hpr
      rcases hk with ⟨h, -, -⟩ | ⟨h, -, -⟩ | ⟨h, -, -⟩ | ⟨h, -, -⟩ | ⟨st, h, -, -⟩ <;>
        rw [h] at hph' <;> cases hph'
      rfl
  · intro pid pr cmd rest hget hcode henv
    obtain ⟨-, hph, -, -⟩ := hI.code_run hget hcode
    have hlt := lt_of_getElem? hget
    have hs : step env ⟨pid, Op.sketch⟩ (runSketch env t sched) =
        some ((runSketch env t sched).apply pid
          { proc := { pr with code := [], phase := Phase.Executing ⟨cmd, []⟩ },
            spawn := none, pipes := (runSketch env t sched).pipes,
            event := Event.executed pid ⟨cmd, []⟩ pr.fds }) := by
      simp [step, hget, stepProc, hph, stepSketch, hcode, henv]
    simp only [stepOrStay, hs, Option.getD_some]
    refine ⟨?_, ?_, ?_, ?_⟩
    · simp [Sys.phaseOf, apply_get_self _ _ _ hlt]
    · simp [Sys.fdsOf, apply_get_self _ _ _ hlt]
    · simp [apply_length]
    · simp [apply_log]
  · intro par c fds h
    obtain ⟨h1, h2, h3, -⟩ := hI.events _ h
    have := hI.procs_length_le
    exact ⟨h1, by omega⟩

theorem C6_run_never_returns_witness :
    (step allResolve ⟨1, Op.sketch⟩ (runSketch allResolve tty fullSchedule) = none ∧
      ∃ pr, (runSketch allResolve tty fullSchedule).procs[1]? = some pr ∧ pr.code = []) ∧
    (⟨"wc", []⟩ : Image).args = [] ∧
    (0 = 0 ∧ (2 = 1 ∨ 2 = 2)) ∧
    (runSketch allResolve tty
        [⟨0, Op.sketch⟩, ⟨0, Op.sketch⟩, ⟨0, Op.sketch⟩, ⟨1, Op.sketch⟩, ⟨1, Op.sketch⟩]).fdsOf 1 =
      some (remappedTable tty 1) :=
  ⟨(C6_run_never_returns allResolve tty fullSchedule).1 1 (Phase.Executing ⟨"wc", []⟩)
      (by decide) (by decide),
   (C6_run_never_returns allResolve tty fullSchedule).2.1 1 ⟨"wc", []⟩ (by decide),
   (C6_run_never_returns allResolve tty fullSchedule).2.2.2.1 0 2 (withPipe tty) (by decide),
   ((C6_run_never_returns allResolve tty
      [⟨0, Op.sketch⟩, ⟨0, Op.sketch⟩, ⟨0, Op.sketch⟩, ⟨1, Op.sketch⟩]).2.2.1 1
    { fds := remappedTable tty 1, p := some pipeP, code := [Stmt.run "wc"],
      phase := Phase.Remapping } "wc" [] rfl rfl rfl).2.1⟩


/-- With the three standard slots open at the start, once a child exists every process
that has not ended holds both ends of `p` above its standard slots. -/
theorem Inv.holds_both {env : Resolution} {t : InitialTable} {s : Sys} (hI : Inv env t s)
    (hopen : t.standardOpen) {c : Nat} {pr : Proc} (hlen : 1 < s.procs.length)
    (hget : s.procs[c]? = some pr) (hst : pr.phase.exitStatus = none) :
    pipeP.read ∈ pr.fds.others ∧ pipeP.write ∈ pr.fds.others := by
  have hw : pipeP.read ∈ (withPipe t).others ∧ pipeP.write ∈ (withPipe t).others := by
    rw [withPipe_others hopen]; simp
  by_cases hc : c = 0
  · subst hc
    obtain ⟨o, ho, hcases⟩ := hI.orch
    rw [hget] at ho; cases ho
    rcases hcases with ⟨-, -, -, -, -, hl, -⟩ |
      ⟨k, -, -, -, -, -, -, ⟨-, -, hf⟩ | ⟨-, hph, -, -⟩⟩
    · omega
    · rw [hf]; exact hw
    · rw [hph] at hst; simp [Phase.exitStatus] at hst
  · obtain ⟨-, hk⟩ := hI.kids c pr (by omega) hget
    rcases hk with ⟨-, -, hf⟩ | ⟨-, -, hf⟩ | ⟨-, -, hf⟩ | ⟨-, -, hf⟩ | ⟨st, hph, -, -⟩
    · rw [hf]; exact hw
    · rw [hf, remappedTable_others]; exact hw
    · rw [hf, remappedTable_others]; exact hw
    · rw [hf.1, remappedTable_others]; exact hw
    · rw [hph] at hst; simp [Phase.exitStatus] at hst

/-- With the three standard slots open at the start, a process that exists and has a
slot on the read end of a pipe is the `wc` child after its remap, alive. -/
theorem Inv.reader_alive {env : Resolution} {t : InitialTable} {s : Sys} (hI : Inv env t s)
    (hopen : t.standardOpen) {c : Nat} {pr : Proc} {slot : StdStream} {id : Nat}
    (hget : s.procs[c]? = some pr) (hslot : pr.fds.get slot = some (Handle.pipeRead id)) :
    id = 0 ∧ 1 < s.procs.length ∧ pr.phase.exitStatus = none := by
  have hclosed : ∀ sl, DescriptorTable.closedAll.get sl ≠ some (Handle.pipeRead id) := by
    intro sl; cases sl <;> simp [DescriptorTable.closedAll, DescriptorTable.get]
  have hlt := lt_of_getElem? hget
  by_cases hc : c = 0
  · subst hc
    obtain ⟨o, ho, hcases⟩ := hI.orch
    rw [hget] at ho; cases ho
    rcases hcases with ⟨-, -, -, hf, -⟩ | ⟨k, -, -, -, -, -, -, ⟨-, -, hf⟩ | ⟨-, -, -, hf⟩⟩
    · rw [hf] at hslot; exact absurd hslot (table_get_ne_pipeRead t slot id)
    · rw [hf, withPipe_get hopen] at hslot
      exact absurd hslot (table_get_ne_pipeRead t slot id)
    · rw [hf] at hslot; exact absurd hslot (hclosed slot)
  · obtain ⟨-, hk⟩ := hI.kids c pr (by omega) hget
    rcases hk with ⟨-, -, hf⟩ | ⟨hph, -, hf⟩ | ⟨hph, -, hf⟩ | ⟨hph, -, hf⟩ | ⟨st, -, -, hf⟩
    · rw [hf, withPipe_get hopen] at hslot
      exact absurd hslot (table_get_ne_pipeRead t slot id)
    · rw [hf] at hslot
      exact ⟨(remappedTable_get_pipeRead hopen hslot).2.2, by omega, by rw [hph]; rfl⟩
    · rw [hf] at hslot
      exact ⟨(remappedTable_get_pipeRead hopen hslot).2.2, by omega, by rw [hph]; rfl⟩
    · exact ⟨(remappedTable_get_pipeRead hopen (hf.get_eq hslot)).2.2, by omega,
        by rw [hph]; rfl⟩
    · rw [hf] at hslot; exact absurd hslot (hclosed slot)

/-- C8 (as amended): the sketch never closes a pipe end. The three standard slots being
open when the sketch starts, in every state reached once a child has been launched
every process that has not ended, the `wc` child, the `ls` child and the orchestrator
alike, still holds both the read end and the write end of `p` above its standard
slots. Hence, as long as the `wc` child has not ended, the number of open write
handles on `p` is positive, also after `ls` has exited and after the orchestrator has
ended, and no read of any process ever yields end-of-stream. -/
theorem C8_unused_ends_stay_open (env : Resolution) (t : InitialTable) (sched : List Action)
    (hopen : t.standardOpen) :
    (∀ (c : Nat) (pr : Proc), 1 < (runSketch env t sched).procs.length →
      (runSketch env t sched).procs[c]? = some pr → pr.phase.exitStatus = none →
        pipeP.read ∈ pr.fds.others ∧ pipeP.write ∈ pr.fds.others) ∧
    (∀ pr : Proc, (runSketch env t sched).procs[1]? = some pr → pr.phase.exitStatus = none →
      0 < openWriteHandles (runSketch env t sched) 0) ∧
    (∀ (pid : Nat) (slot : StdStream),
      Event.endOfStream pid slot ∉ (runSketch env t sched).log) ∧
    (∀ (c : Nat) (pr : Proc) (slot : StdStream) (n : Nat),
      (runSketch env t sched).procs[c]? = some pr →
        readOutcome (runSketch env t sched) pr slot n ≠ ReadOutcome.endOfStream) := by
  have hI := inv_runSketch env t sched
  refine ⟨?_, ?_, ?_, ?_⟩
  · intro c pr hlen hget hst
    exact hI.holds_both hopen hlen hget hst
  · intro pr hget hst
    have := lt_of_getElem? hget
    exact openWriteHandles_pos hget
      (mem_handles_of_others (hI.holds_both hopen (by omega) hget hst).2)
  · intro pid slot h
    exact hI.events _ h hopen
  · intro c pr slot n hget hEOF
    obtain ⟨id, buf, hslot, -, hzero⟩ := readOutcome_endOfStream hEOF
    obtain ⟨rfl, hlen, hst⟩ := hI.reader_alive hopen hget hslot
    have := openWriteHandles_pos hget
      (mem_handles_of_others (hI.holds_both hopen hlen hget hst).2)
    omega

theorem C8_unused_ends_stay_open_witness :
    (pipeP.read ∈ (remappedTable tty 1).others ∧ pipeP.write ∈ (remappedTable tty 1).others) ∧
    0 < openWriteHandles (runSketch allResolve tty readerAloneRun) 0 ∧
    readOutcome (runSketch allResolve tty readerAloneRun)
      { fds := remappedTable tty 1, p := some pipeP, code := [],
        phase := Phase.Executing ⟨"wc", []⟩ } StdStream.standard_in 1 ≠
      ReadOutcome.endOfStream :=
  ⟨(C8_unused_ends_stay_open allResolve tty readerAloneRun
      ⟨rfl, rfl, rfl⟩).1 1
      { fds := remappedTable tty 1, p := some pipeP, code := [],
        phase := Phase.Executing ⟨"wc", []⟩ } (by decide) rfl rfl,
   (C8_unused_ends_stay_open allResolve tty readerAloneRun
      ⟨rfl, rfl, rfl⟩).2.1
      { fds := remappedTable tty 1, p := some pipeP, code := [],
        phase := Phase.Executing ⟨"wc", []⟩ } rfl rfl,
   (C8_unused_ends_stay_open allResolve tty readerAloneRun
      ⟨rfl, rfl, rfl⟩).2.2.2 1
      { fds := remappedTable tty 1, p := some pipeP, code := [],
        phase := Phase.Executing ⟨"wc", []⟩ } StdStream.standard_in 1 rfl⟩

/-- C8, counterexamples to the claim as stated. From the usual table, after both
children have been launched: once the `wc` image has exited the `wc` child holds no
handle at all, so no write end of `p`; once the orchestrator has ended it holds
neither end. From a table with standard-output closed, the read end of `p` lands in
that slot, the `ls` child remaps the slot to the write end, and the running `ls`
child holds no read end of `p`. -/
theorem C8_counterexample :
    ((runSketch allResolve tty readerExitsRun).procs.length = 3 ∧
      (runSketch allResolve tty readerExitsRun).fdsOf 1 = some DescriptorTable.closedAll ∧
      pipeP.write ∉ DescriptorTable.closedAll.handles) ∧
    ((runSketch allResolve tty orchestratorEndsRun).procs.length = 3 ∧
      (runSketch allResolve tty orchestratorEndsRun).fdsOf 0 =
        some DescriptorTable.closedAll ∧
      pipeP.read ∉ DescriptorTable.closedAll.handles) ∧
    ((runSketch allResolve stdoutClosed fullSchedule).procs.length = 3 ∧
      (runSketch allResolve stdoutClosed fullSchedule).phaseOf 2 =
        some (Phase.Executing ⟨"ls", []⟩) ∧
      (runSketch allResolve stdoutClosed fullSchedule).fdsOf 2 =
        some (remappedTable stdoutClosed 2) ∧
      pipeP.read ∉ (remappedTable stdoutClosed 2).handles) := by
  refine ⟨⟨by decide, by decide, by decide⟩, ⟨by decide, by decide, by decide⟩,
    ⟨by decide, by decide, by decide, by decide⟩⟩

/-- C5, the code at the failing input: the sketch runs to completion, `ls` writes
nothing and exits. Two write handles on `p` are still open (the one the `wc` child
inherited and the orchestrator's), so a read by `wc` from its standard-input blocks:
it does not yield end-of-stream, the read action is not enabled, and no end-of-stream
is ever logged for `wc`. -/
theorem C5_reader_blocks_after_silent_writer_exit :
    (runSketch allResolve tty silentWriterRun).phaseOf 2 = some (Phase.Exited 0) ∧
    writtenBytes 2 StdStream.standard_out (runSketch allResolve tty silentWriterRun).log = [] ∧
    openWriteHandles (runSketch allResolve tty silentWriterRun) 0 = 2 ∧
    readOutcome (runSketch allResolve tty silentWriterRun)
      { fds := remappedTable tty 1, p := some pipeP, code := [],
        phase := Phase.Executing ⟨"wc", []⟩ } StdStream.standard_in 1 = ReadOutcome.blocked ∧
    (runSketch allResolve tty silentWriterRun).fdsOf 1 = some (remappedTable tty 1) ∧
    (step allResolve ⟨1, Op.read StdStream.standard_in 1⟩
      (runSketch allResolve tty silentWriterRun)).isSome = false ∧
    Event.endOfStream 1 StdStream.standard_in ∉
      (runSketch allResolve tty silentWriterRun).log := by
  refine ⟨by decide, by decide, by decide, by decide, by decide, by rfl , by decide⟩

theorem Inv.orch_enabled {env : Resolution} {t : InitialTable} {s : Sys} (hI : Inv env t s)
    {o : Proc} (hget : s.procs[0]? = some o) (hcode : o.code ≠ []) :
    (Multipipe.step env ⟨0, Op.sketch⟩ s).isSome = true := by
  obtain ⟨o', ho, hcases⟩ := hI.orch
  rw [hget] at ho; cases ho
  rcases hcases with ⟨hph, hc, -⟩ |
    ⟨k, hk1, hk3, -, -, -, -, ⟨hph, hc, -⟩ | ⟨-, -, hc, -⟩⟩
  · simp [Multipipe.step, hget, stepProc, hph, stepSketch, hc, orchestrator]
  · have hk : k = 1 ∨ k = 2 ∨ k = 3 := by omega
    rcases hk with rfl | rfl | rfl
    · simp [Multipipe.step, hget, stepProc, hph, stepSketch, hc, orchestrator]
    · simp [Multipipe.step, hget, stepProc, hph, stepSketch, hc, orchestrator]
    · rw [hc] at hcode; simp [orchestrator] at hcode
  · exact absurd hc hcode

/-- C9: in every execution of the sketch only the orchestrator duplicates, and the child
that runs `wc` (the reader, last command of the pipeline) is duplicated before the
child that runs `ls` (the writer): the first duplicate runs the `wc` block, the second
the `ls` block. The orchestrator does not wait: whatever the children have done, its
next statement is enabled as long as it has one, and it can launch the second child
while the first has not taken a single step. -/
theorem C9_reader_child_launched_first (env : Resolution) (t : InitialTable)
    (sched : List Action) :
    (∀ (par c : Nat) (fds : DescriptorTable),
      Event.duplicated par c fds ∈ (runSketch env t sched).log → par = 0 ∧ (c = 1 ∨ c = 2)) ∧
    (∀ (i j : Nat) (f₁ f₂ : DescriptorTable),
      (runSketch env t sched).log[i]? = some (Event.duplicated 0 1 f₁) →
      (runSketch env t sched).log[j]? = some (Event.duplicated 0 2 f₂) → i < j) ∧
    (∀ pr : Proc, (runSketch env t sched).procs[1]? = some pr → pr.phase = Phase.Duplicated →
      pr.code = wcBlock) ∧
    (∀ pr : Proc, (runSketch env t sched).procs[2]? = some pr → pr.phase = Phase.Duplicated →
      pr.code = lsBlock) ∧
    (∀ (pid : Nat) (img : Image) (fds : DescriptorTable),
      Event.executed pid img fds ∈ (runSketch env t sched).log →
        (pid = 1 ∧ img.name = "wc") ∨ (pid = 2 ∧ img.name = "ls")) ∧
    (∀ o : Proc, (runSketch env t sched).procs[0]? = some o → o.code ≠ [] →
      (step env ⟨0, Op.sketch⟩ (runSketch env t sched)).isSome = true) ∧
    ((runSketch env t orchestratorOnly).phaseOf 1 = some Phase.Duplicated ∧
      (runSketch env t orchestratorOnly).phaseOf 2 = some Phase.Duplicated ∧
      (runSketch env t orchestratorOnly).log =
        [Event.pipeCreated 0 pipeP, Event.duplicated 0 1 (withPipe t),
         Event.duplicated 0 2 (withPipe t)]) := by
  have hI := inv_runSketch env t sched
  have hL := logOrder_runSketch env t sched
  refine ⟨?_, hL.readerFirst, ?_, ?_, ?_, ?_, ?_⟩
  · intro par c fds h
    obtain ⟨h1, h2, h3, -⟩ := hI.events _ h
    have := hI.procs_length_le
    exact ⟨h1, by omega⟩
  · intro pr hget hph
    obtain ⟨-, hk⟩ := hI.kids 1 pr (le_refl _) hget
    rcases hk with ⟨-, hc, -⟩ | ⟨h, -, -⟩ | ⟨h, -, -⟩ | ⟨h, -, -⟩ | ⟨st, h, -, -⟩
    · simpa [childBlock] using hc
    all_goals (rw [h] at hph; cases hph)
  · intro pr hget hph
    obtain ⟨-, hk⟩ := hI.kids 2 pr (by omega) hget
    rcases hk with ⟨-, hc, -⟩ | ⟨h, -, -⟩ | ⟨h, -, -⟩ | ⟨h, -, -⟩ | ⟨st, h, -, -⟩
    · simpa [childBlock] using hc
    all_goals (rw [h] at hph; cases hph)
  · intro pid img fds h
    obtain ⟨hpid, himg, -⟩ := hI.executed_pid h
    subst himg
    rcases hpid with rfl | rfl
    · exact Or.inl ⟨rfl, rfl⟩
    · exact Or.inr ⟨rfl, rfl⟩
  · intro o hget hcode
    exact hI.orch_enabled hget hcode
  · simp [runSketch, exec, orchestratorOnly, initSys, stepOrStay, step, stepProc, stepSketch,
      orchestrator, Sys.apply, createpipe, pipeP, withPipe, Sys.phaseOf]

theorem C9_reader_child_launched_first_witness :
    (0 = 0 ∧ (1 = 1 ∨ 1 = 2)) ∧ 1 < 2 ∧
    (step allResolve ⟨0, Op.sketch⟩
      (runSketch allResolve tty [⟨0, Op.sketch⟩, ⟨0, Op.sketch⟩])).isSome = true ∧
    ((1 = 1 ∧ (⟨"wc", []⟩ : Image).name = "wc") ∨ (1 = 2 ∧ (⟨"wc", []⟩ : Image).name = "ls")) ∧
    ({ fds := withPipe tty, p := some pipeP, code := wcBlock,
       phase := Phase.Duplicated } : Proc).code = wcBlock :=
  ⟨(C9_reader_child_launched_first allResolve tty fullSchedule).1 0 1 (withPipe tty)
      (by decide),
   (C9_reader_child_launched_first allResolve tty fullSchedule).2.1 1 2 (withPipe tty)
      (withPipe tty) (by decide) (by decide),
   (C9_reader_child_launched_first allResolve tty [⟨0, Op.sketch⟩, ⟨0, Op.sketch⟩]).2.2.2.2.2.1
      { fds := withPipe tty, p := some pipeP, code := [Stmt.child lsBlock],
        phase := Phase.Original } rfl (by simp),
   (C9_reader_child_launched_first allResolve tty fullSchedule).2.2.2.2.1 1 ⟨"wc", []⟩
      (remappedTable tty 1) (by decide),
   (C9_reader_child_launched_first allResolve tty orchestratorOnly).2.2.1
      { fds := withPipe tty, p := some pipeP, code := wcBlock, phase := Phase.Duplicated }
      rfl rfl⟩


/-- C10 (as amended): remaps are local and single-slot. `changefd` rebinds the named
slot and nothing else of the table, and a step of one process leaves every other
process as it was. So in every execution of the sketch from an initial table whose
three standard slots are open: the orchestrator's three standard slots keep their
initial bindings for as long as it has not ended; when `wc` starts, its
standard-output and standard-error are the initial bindings; when `ls` starts, its
standard-input and standard-error are the initial bindings, and its standard-input is
not the read end of `p`; a child that has not started its image has every slot but
the one it remaps at its initial binding; and after the whole sequence the three
tables are the orchestrator's table with the pipe ends above the standard slots, and
that table with the one slot remapped. -/
theorem C10_remaps_are_local (env : Resolution) (t : InitialTable) (sched : List Action) :
    (∀ (d : DescriptorTable) (hd : Handle) (slot slot' : StdStream),
      (changefd d hd slot).get slot = some hd ∧ (changefd d hd slot).others = d.others ∧
      (slot' ≠ slot → (changefd d hd slot).get slot' = d.get slot')) ∧
    (∀ (a : Action) (s' : Sys), step env a (runSketch env t sched) = some s' →
      ∀ (q : Nat) (pr : Proc), q ≠ a.pid → (runSketch env t sched).procs[q]? = some pr →
        s'.procs[q]? = some pr) ∧
    (t.standardOpen →
      (∃ o, (runSketch env t sched).procs[0]? = some o ∧
        (o.phase.exitStatus = none →
          o.fds.standard_in = t.table.standard_in ∧
          o.fds.standard_out = t.table.standard_out ∧
          o.fds.standard_error = t.table.standard_error)) ∧
      (∀ (img : Image) (fds : DescriptorTable),
        Event.executed 1 img fds ∈ (runSketch env t sched).log →
          fds.standard_out = t.table.standard_out ∧
          fds.standard_error = t.table.standard_error) ∧
      (∀ (img : Image) (fds : DescriptorTable),
        Event.executed 2 img fds ∈ (runSketch env t sched).log →
          fds.standard_in = t.table.standard_in ∧
          fds.standard_error = t.table.standard_error ∧
          fds.standard_in ≠ some pipeP.read) ∧
      (∀ (c : Nat) (pr : Proc) (slot : StdStream), 1 ≤ c →
        (runSketch env t sched).procs[c]? = some pr → pr.phase.rank ≤ 1 →
        slot ≠ childSlot c → pr.fds.get slot = t.table.get slot) ∧
      ((runSketch env t fullSchedule).fdsOf 0 = some (withPipe t) ∧
        (runSketch env t fullSchedule).fdsOf 1 =
          some { withPipe t with standard_in := some pipeP.read } ∧
        (runSketch env t fullSchedule).fdsOf 2 =
          some { withPipe t with standard_out := some pipeP.write } ∧
        (withPipe t).standard_in = t.table.standard_in ∧
        (withPipe t).standard_out = t.table.standard_out ∧
        (withPipe t).standard_error = t.table.standard_error ∧
        (withPipe t).others = t.table.others ++ [pipeP.read, pipeP.write] ∧
        t.table.standard_in ≠ some pipeP.read)) := by
  have hI := inv_runSketch env t sched
  refine ⟨?_, ?_, ?_⟩
  · intro d hd slot slot'
    refine ⟨by simp [changefd, get_set], by simp [changefd, set_others], ?_⟩
    intro hne
    simp [changefd, get_set, hne]
  · intro a s' hstep q pr hq hget
    obtain ⟨pr0, eff, -, -, rfl⟩ := step_eq_some hstep
    rw [apply_get_other _ _ _ _ hq (lt_of_getElem? hget)]
    exact hget
  · intro hopen
    have hwp := withPipe_open hopen
    have hin : (withPipe t).standard_in = t.table.standard_in := by rw [hwp]
    have hout : (withPipe t).standard_out = t.table.standard_out := by rw [hwp]
    have herr : (withPipe t).standard_error = t.table.standard_error := by rw [hwp]
    have hne : t.table.standard_in ≠ some pipeP.read := by
      have := table_get_ne_pipeRead t StdStream.standard_in 0
      simpa [DescriptorTable.get, pipeP] using this
    refine ⟨?_, ?_, ?_, ?_, ?_⟩
    · obtain ⟨o, ho, hcases⟩ := hI.orch
      refine ⟨o, ho, ?_⟩
      intro hst
      rcases hcases with ⟨-, -, -, hf, -⟩ |
        ⟨k, -, -, -, -, -, -, ⟨-, -, hf⟩ | ⟨-, hph, -, -⟩⟩
      · rw [hf]; exact ⟨rfl, rfl, rfl⟩
      · rw [hf]; exact ⟨hin, hout, herr⟩
      · rw [hph] at hst; simp [Phase.exitStatus] at hst
    · intro img fds h
      obtain ⟨-, -, hfds⟩ := hI.executed_pid h
      subst hfds
      simp [remappedTable, changefd, childSlot, DescriptorTable.set, hout, herr]
    · intro img fds h
      obtain ⟨-, -, hfds⟩ := hI.executed_pid h
      subst hfds
      simp [remappedTable, changefd, childSlot, DescriptorTable.set, hin, herr]
      exact hne
    · intro c pr slot hc hget hr hslot
      obtain ⟨-, hk⟩ := hI.kids c pr hc hget
      rcases hk with ⟨-, -, hf⟩ | ⟨-, -, hf⟩ | ⟨-, -, hf⟩ | ⟨h, -, -⟩ | ⟨st, h, -, -⟩
      · rw [hf, withPipe_get hopen]
      · rw [hf, remappedTable_get, withPipe_get hopen]; simp [hslot]
      · rw [hf, remappedTable_get, withPipe_get hopen]; simp [hslot]
      · rw [h] at hr; simp [Phase.rank] at hr
      · rw [h] at hr; simp [Phase.rank] at hr
    · have h1 := (fullSchedule_kid env t 1 (Or.inl rfl)).1
      have h2 := (fullSchedule_kid env t 2 (Or.inr rfl)).1
      refine ⟨(fullSchedule_orch env t).1, ?_, ?_, hin, hout, herr, withPipe_others hopen, hne⟩
      · rw [h1]
        simp [remappedTable, changefd, childSlot, childEnd, Pipe.sel, DescriptorTable.set]
      · rw [h2]
        simp [remappedTable, changefd, childSlot, childEnd, Pipe.sel, DescriptorTable.set]

theorem C10_remaps_are_local_witness :
    ((changefd tty.table pipeP.read StdStream.standard_in).get StdStream.standard_out =
      tty.table.get StdStream.standard_out) ∧
    (runSketch allResolve tty
        [⟨0, Op.sketch⟩, ⟨0, Op.sketch⟩, ⟨0, Op.sketch⟩, ⟨1, Op.sketch⟩, ⟨1, Op.sketch⟩]).procs[2]? =
      some { fds := withPipe tty, p := some pipeP, code := lsBlock,
             phase := Phase.Duplicated } ∧
    ((remappedTable tty 1).standard_out = tty.table.standard_out ∧
      (remappedTable tty 1).standard_error = tty.table.standard_error) ∧
    ((remappedTable tty 2).standard_in = tty.table.standard_in ∧
      (remappedTable tty 2).standard_error = tty.table.standard_error ∧
      (remappedTable tty 2).standard_in ≠ some pipeP.read) ∧
    (withPipe tty).get StdStream.standard_in = tty.table.get StdStream.standard_in :=
  ⟨((C10_remaps_are_local allResolve tty []).1 tty.table pipeP.read StdStream.standard_in
      StdStream.standard_out).2.2 (by decide),
   (C10_remaps_are_local allResolve tty
      [⟨0, Op.sketch⟩, ⟨0, Op.sketch⟩, ⟨0, Op.sketch⟩, ⟨1, Op.sketch⟩]).2.1 ⟨1, Op.sketch⟩
      (runSketch allResolve tty
        [⟨0, Op.sketch⟩, ⟨0, Op.sketch⟩, ⟨0, Op.sketch⟩, ⟨1, Op.sketch⟩, ⟨1, Op.sketch⟩])
      rfl 2 { fds := withPipe tty, p := some pipeP, code := lsBlock, phase := Phase.Duplicated }
      (by decide) rfl,
   ((C10_remaps_are_local allResolve tty fullSchedule).2.2 ⟨rfl, rfl, rfl⟩).2.1 ⟨"wc", []⟩
      (remappedTable tty 1) (by decide),
   ((C10_remaps_are_local allResolve tty fullSchedule).2.2 ⟨rfl, rfl, rfl⟩).2.2.1 ⟨"ls", []⟩
      (remappedTable tty 2) (by decide),
   ((C10_remaps_are_local allResolve tty orchestratorOnly).2.2 ⟨rfl, rfl, rfl⟩).2.2.2.1 2
      { fds := withPipe tty, p := some pipeP, code := lsBlock, phase := Phase.Duplicated }
      StdStream.standard_in (by decide) rfl (by decide) (by decide)⟩

/-- C10, counterexamples to the claim as stated, which is for every initial table.
With standard-input closed at the start, the read end of `p` takes that slot: after
the whole sequence the orchestrator's standard-input is the read end of `p`, not its
initial binding, and `ls` starts with the read end of `p` as its standard-input. With
standard-output closed at the start, `wc` starts with the read end of `p` as its
standard-output. -/
theorem C10_counterexample :
    (stdinClosed.table.standard_in = none ∧
      (runSketch allResolve stdinClosed fullSchedule).fdsOf 0 = some (withPipe stdinClosed) ∧
      (withPipe stdinClosed).standard_in = some pipeP.read ∧
      (runSketch allResolve stdinClosed fullSchedule).fdsOf 2 =
        some (remappedTable stdinClosed 2) ∧
      Event.executed 2 ⟨"ls", []⟩ (remappedTable stdinClosed 2) ∈
        (runSketch allResolve stdinClosed fullSchedule).log ∧
      (remappedTable stdinClosed 2).standard_in = some pipeP.read) ∧
    (stdoutClosed.table.standard_out = none ∧
      Event.executed 1 ⟨"wc", []⟩ (remappedTable stdoutClosed 1) ∈
        (runSketch allResolve stdoutClosed fullSchedule).log ∧
      (remappedTable stdoutClosed 1).standard_out = some pipeP.read) := by
  refine ⟨⟨by decide, by decide, by decide, by decide, by decide, by decide⟩,
    ⟨by decide, by decide, by decide⟩⟩

end Multipipe
